import Mathlib

/-!
Verification of the Huffman coding core in `huffman_coding.py`.

Shallow embedding conventions:
* a Python character is a `Nat` (its code point);
* a Python bit-string of `'0'`/`'1'` characters is a `List Bool`
  (`false` = `'0'`, `true` = `'1'`);
* Python `dict`s are association lists with insert-or-update assignment
  (`dictSet`) and first-match lookup (`dictGet?`), which coincide with
  Python dict semantics because assignment keeps keys unique;
* a Python `Node` reference (which may be `None`) is the inductive
  `Node`, whose `nil` constructor stands for `None`;
* `heapq` is embedded operation by operation (`_siftdown`, `_siftup`,
  `heappush`, `heappop`) on a `List Node`, with the `while` loops
  expressed by structural recursion on an explicit counter that is
  always at least the number of iterations the Python loop performs;
* code that can raise (`KeyError`, `IndexError`, `int('', 2)`) returns
  `Option`.
-/

namespace Huffman

/-- Python `dict` lookup `d[k]`, `none` when the key raises `KeyError`. -/
def dictGet? {α β : Type} [DecidableEq α] : List (α × β) → α → Option β
  | [], _ => none
  | (k', v') :: rest, k => if k' = k then some v' else dictGet? rest k

/-- Python `dict` assignment `d[k] = v`: update the existing key in place,
otherwise append the new binding at the end (insertion order). -/
def dictSet {α β : Type} [DecidableEq α] : List (α × β) → α → β → List (α × β)
  | [], k, v => [(k, v)]
  | (k', v') :: rest, k, v =>
      if k' = k then (k, v) :: rest else (k', v') :: dictSet rest k v

/-- `collections.Counter` update for one character: increment the count of an
existing key in place, otherwise append the key with count 1. -/
def counterAdd : List (Nat × Nat) → Nat → List (Nat × Nat)
  | [], c => [(c, 1)]
  | (k, v) :: rest, c =>
      if k = c then (k, v + 1) :: rest else (k, v) :: counterAdd rest c

/-- `__make_freq_dict`: `Counter(text)`, iterated in first-occurrence order. -/
def make_freq_dict (text : List Nat) : List (Nat × Nat) :=
  text.foldl counterAdd []

/-- `"{0:0wb}".format n` for `n < 2 ^ w`: the `w`-bit binary representation,
most significant bit first. -/
def natToBits : Nat → Nat → List Bool
  | 0, _ => []
  | w + 1, n => decide (n / 2 ^ w % 2 = 1) :: natToBits w n

/-- Python `int(s, 2)` on a bit string. -/
def bitsToNat (bits : List Bool) : Nat :=
  bits.foldl (fun acc b => 2 * acc + (if b then 1 else 0)) 0

/-- A Python `Node` reference: `nil` is `None`; `mk key freq left right`
mirrors the `Node` object with its four attributes. -/
inductive Node : Type where
  | nil : Node
  | mk (key : Option Nat) (freq : Nat) (left right : Node) : Node
deriving DecidableEq

instance : Inhabited Node := ⟨Node.nil⟩

/-- The `freq` attribute (only read on non-`None` references). -/
def Node.freq : Node → Nat
  | .nil => 0
  | .mk _ f _ _ => f

/-- `heap[i]` (all reads in the embedded code are in bounds). -/
def getN (heap : List Node) (i : Nat) : Node :=
  heap.getD i Node.nil

/-- The loop of `heapq._siftdown`: move `newitem` towards the root while it
compares `<` (that is, `Node.__lt__`: strictly smaller `freq`) to its parent.
The first argument counts remaining permitted iterations; callers pass `pos`,
which bounds the number of iterations because the position strictly
decreases. -/
def siftdownLoop : Nat → List Node → Nat → Nat → Node → List Node
  | 0, heap, _, pos, newitem => heap.set pos newitem
  | fuel + 1, heap, startpos, pos, newitem =>
      if startpos < pos then
        let parentpos := (pos - 1) / 2
        let parent := getN heap parentpos
        if newitem.freq < parent.freq then
          siftdownLoop fuel (heap.set pos parent) startpos parentpos newitem
        else
          heap.set pos newitem
      else
        heap.set pos newitem

/-- `heapq._siftdown(heap, startpos, pos)`. -/
def siftdown (heap : List Node) (startpos pos : Nat) : List Node :=
  siftdownLoop pos heap startpos pos (getN heap pos)

/-- The loop of `heapq._siftup`: bubble the smaller child up until reaching a
leaf, then place `newitem` and call `_siftdown`.  The counter bounds the
iterations; callers pass `endpos`, which suffices because the position
strictly increases and stays below `endpos`. -/
def siftupLoop : Nat → List Node → Nat → Nat → Nat → Node → List Node
  | 0, heap, _, startpos, pos, newitem => siftdown (heap.set pos newitem) startpos pos
  | fuel + 1, heap, endpos, startpos, pos, newitem =>
      let childpos := 2 * pos + 1
      if childpos < endpos then
        let rightpos := childpos + 1
        let childpos :=
          if rightpos < endpos ∧ ¬ (getN heap childpos).freq < (getN heap rightpos).freq
          then rightpos else childpos
        siftupLoop fuel (heap.set pos (getN heap childpos)) endpos startpos childpos newitem
      else
        siftdown (heap.set pos newitem) startpos pos

/-- `heapq._siftup(heap, pos)`. -/
def siftup (heap : List Node) (pos : Nat) : List Node :=
  siftupLoop heap.length heap heap.length pos pos (getN heap pos)

/-- `heapq.heappush(heap, item)`. -/
def heappush (heap : List Node) (item : Node) : List Node :=
  siftdown (heap ++ [item]) 0 heap.length

/-- `heapq.heappop(heap)`: `none` models the `IndexError` on an empty heap;
otherwise returns the popped item and the remaining heap. -/
def heappop (heap : List Node) : Option (Node × List Node) :=
  match heap.getLast? with
  | none => none
  | some lastelt =>
      match heap.dropLast with
      | [] => some (lastelt, [])
      | r0 :: rt => some (r0, siftup ((r0 :: rt).set 0 lastelt) 0)

/-- `__build_heap`: push one leaf `Node(key, freq)` per entry of the
frequency dictionary onto the (initially empty) min-heap. -/
def build_heap (freq_dict : List (Nat × Nat)) : List Node :=
  freq_dict.foldl (fun h kv => heappush h (Node.mk (some kv.1) kv.2 .nil .nil)) []

/-- The `while` loop of `__build_tree`: merge the two smallest nodes under a
fresh internal node (`key = None`) until one node remains.  The counter
bounds the iterations; the heap shrinks by one per iteration, so the initial
heap length suffices. -/
def buildTreeLoop : Nat → List Node → List Node
  | 0, heap => heap
  | fuel + 1, heap =>
      if heap.length > 1 then
        match heappop heap with
        | none => heap
        | some (node_1, h1) =>
            match heappop h1 with
            | none => h1
            | some (node_2, h2) =>
                buildTreeLoop fuel
                  (heappush h2 (Node.mk none (node_1.freq + node_2.freq) node_1 node_2))
      else
        heap

/-- `__build_tree`. -/
def build_tree (heap : List Node) : List Node :=
  buildTreeLoop heap.length heap

/-- `__build_codes`: depth-first traversal accumulating the path, recording
`(key, path)` in the codes table and `(path, key)` in the reverse table at
every node whose `key` is not `None`. -/
def build_codes :
    Node → List Bool → List (Nat × List Bool) × List (List Bool × Nat) →
      List (Nat × List Bool) × List (List Bool × Nat)
  | .nil, _, tabs => tabs
  | .mk key _ left right, bin_code, tabs =>
      let tabs :=
        match key with
        | some k => (dictSet tabs.1 k bin_code, dictSet tabs.2 bin_code k)
        | none => tabs
      let tabs := build_codes left (bin_code ++ [false]) tabs
      build_codes right (bin_code ++ [true]) tabs

/-- The table-building prefix of `compress`: frequency dictionary, heap,
tree, then `__build_codes(heapq.heappop(self.__min_heap))` starting from the
empty tables.  `none` models the `IndexError` when the heap is empty. -/
def codeTablesOf (freq_dict : List (Nat × Nat)) :
    Option (List (Nat × List Bool) × List (List Bool × Nat)) :=
  (heappop (build_tree (build_heap freq_dict))).map
    (fun p => build_codes p.1 [] ([], []))

/-- The concatenation loop of `__encode_text`; `none` models the `KeyError`
on a character absent from the codes table. -/
def concatCodes (codes : List (Nat × List Bool)) : List Nat → Option (List Bool)
  | [] => some []
  | c :: rest => do
      let code ← dictGet? codes c
      let restBits ← concatCodes codes rest
      pure (code ++ restBits)

/-- `__encode_text`: concatenate the codes, append `8 - len % 8` zero pad
bits, and prepend the 8-bit pad-amount header. -/
def encode_text (codes : List (Nat × List Bool)) (text : List Nat) :
    Option (List Bool) := do
  let encoded ← concatCodes codes text
  let pad_amount := 8 - encoded.length % 8
  let encoded := encoded ++ List.replicate pad_amount false
  let pad_info := natToBits 8 pad_amount
  pure (pad_info ++ encoded)

/-- The chunking loop of `__encoded_to_bin`, with the remaining list length
as the structural counter. -/
def encodedToBinGo : Nat → List Bool → List Nat
  | _, [] => []
  | 0, _ :: _ => []
  | fuel + 1, s => bitsToNat (s.take 8) :: encodedToBinGo fuel (s.drop 8)

/-- `__encoded_to_bin`: split the bit string into 8-bit chunks and convert
each chunk with `int(chunk, 2)`. -/
def encoded_to_bin (s : List Bool) : List Nat :=
  encodedToBinGo s.length s

/-- The whole encoding path of `compress` after the tables are built, and
the byte values written to the output file. -/
def compressBytes (text : List Nat) : Option (List Nat) := do
  let tabs ← codeTablesOf (make_freq_dict text)
  let encoded ← encode_text tabs.1 text
  pure (encoded_to_bin encoded)

/-- The byte-to-bits loop of `decompress`: `bin(byte)[2:].rjust(8, '0')` for
each byte value (byte values read from a file are below 256). -/
def bytesToBits (bytes : List Nat) : List Bool :=
  bytes.foldr (fun b acc => natToBits 8 b ++ acc) []

/-- `__remove_pad`: read the pad amount from the first 8 bits, then take the
Python slice `bit_string[8:-pad_info]`.  `none` models the `ValueError` of
`int('', 2)` on an empty bit string.  When `pad_info` is 0 the slice bound
`-0` is `0`, so the slice is empty. -/
def remove_pad (bit_string : List Bool) : Option (List Bool) :=
  match bit_string with
  | [] => none
  | _ :: _ =>
      let pad_info := bitsToNat (bit_string.take 8)
      some (if pad_info = 0 then []
            else (bit_string.take (bit_string.length - pad_info)).drop 8)

/-- The scanning loop of `__decode_text`: grow the candidate bit by bit and
emit a character whenever the candidate is a key of the reverse table. -/
def decodeLoop (rev : List (List Bool × Nat)) :
    List Bool → List Bool → List Nat
  | [], _ => []
  | bit :: rest, curr_bits =>
      let curr_bits := curr_bits ++ [bit]
      match dictGet? rev curr_bits with
      | some ch => ch :: decodeLoop rev rest []
      | none => decodeLoop rev rest curr_bits

/-- `__decode_text`. -/
def decode_text (rev : List (List Bool × Nat)) (compressed_text : List Bool) :
    List Nat :=
  decodeLoop rev compressed_text []

/-- The decoding path of `decompress` on the byte values of the compressed
file, given the reverse table. -/
def decompressBytes (rev : List (List Bool × Nat)) (bytes : List Nat) :
    Option (List Nat) := do
  let compressed ← remove_pad (bytesToBits bytes)
  pure (decode_text rev compressed)

/-- Encode `text` with the tables built from its own frequency dictionary,
then decode the resulting bytes with the reverse table of the same run. -/
def roundTrip (text : List Nat) : Option (List Nat) := do
  let tabs ← codeTablesOf (make_freq_dict text)
  let encoded ← encode_text tabs.1 text
  decompressBytes tabs.2 (encoded_to_bin encoded)

/-- Well-formedness of a tree produced by the merge loop: a node carrying a
key is a leaf with two `None` children, and a key-less internal node has
exactly two non-`None` children and a frequency equal to the sum of its
children's frequencies.  `None` itself is not well formed. -/
def wf : Node → Bool
  | .nil => false
  | .mk (some _) _ .nil .nil => true
  | .mk (some _) _ .nil (.mk _ _ _ _) => false
  | .mk (some _) _ (.mk _ _ _ _) _ => false
  | .mk none _ .nil _ => false
  | .mk none _ (.mk _ _ _ _) .nil => false
  | .mk none f (.mk k1 f1 l1 r1) (.mk k2 f2 l2 r2) =>
      (f == f1 + f2) && wf (.mk k1 f1 l1 r1) && wf (.mk k2 f2 l2 r2)

/-- The keys stored at key-carrying nodes of a tree, in depth-first order. -/
def leafKeys : Node → List Nat
  | .nil => []
  | .mk key _ left right => key.toList ++ leafKeys left ++ leafKeys right

/-- All keys stored in the trees of a heap, in heap order. -/
def heapKeys (heap : List Node) : List Nat :=
  heap.foldr (fun n acc => leafKeys n ++ acc) []

/-- The `(key, path)` pairs that `__build_codes` records while traversing a
tree, in traversal order. -/
def entriesOf : Node → List Bool → List (Nat × List Bool)
  | .nil, _ =>  []
  | .mk key _ left right, bin_code =>
      key.toList.map (fun k => (k, bin_code)) ++
        entriesOf left (bin_code ++ [false]) ++ entriesOf right (bin_code ++ [true])

/-- The `(key, freq)` pairs stored at key-carrying nodes of a tree, in
depth-first order. -/
def leafPairs : Node → List (Nat × Nat)
  | .nil => []
  | .mk key f left right =>
      key.toList.map (fun k => (k, f)) ++ leafPairs left ++ leafPairs right

/-- All `(key, freq)` pairs stored in the trees of a heap, in heap order. -/
def heapPairs (heap : List Node) : List (Nat × Nat) :=
  heap.foldr (fun n acc => leafPairs n ++ acc) []

/-- The `(key, freq, code)` triples of the key-carrying leaves reached from
path `p`, in traversal order. -/
def leafCodes : Node → List Bool → List (Nat × Nat × List Bool)
  | .nil, _ => []
  | .mk key f left right, p =>
      key.toList.map (fun k => (k, f, p)) ++
        leafCodes left (p ++ [false]) ++ leafCodes right (p ++ [true])

/-- The internal cost of a merge tree: the sum, over internal nodes, of the
frequencies of both children; for well-formed trees this equals the sum over
leaves of frequency times depth. -/
def tcost : Node → Nat
  | .nil => 0
  | .mk _ _ .nil .nil => 0
  | .mk _ _ .nil (.mk k2 f2 l2 r2) => tcost (.mk k2 f2 l2 r2) + (Node.mk k2 f2 l2 r2).freq
  | .mk _ _ (.mk k1 f1 l1 r1) .nil => tcost (.mk k1 f1 l1 r1) + (Node.mk k1 f1 l1 r1).freq
  | .mk _ _ (.mk k1 f1 l1 r1) (.mk k2 f2 l2 r2) =>
      tcost (.mk k1 f1 l1 r1) + tcost (.mk k2 f2 l2 r2) +
        (Node.mk k1 f1 l1 r1).freq + (Node.mk k2 f2 l2 r2).freq

/-- The weighted code length of the key-carrying leaves reached at depth `d`:
the sum of frequency times depth over all such leaves. -/
def wlen : Node → Nat → Nat
  | .nil, _ => 0
  | .mk key f left right, d =>
      (match key with | some _ => f * d | none => 0) + wlen left (d + 1) + wlen right (d + 1)

/-- Binary trees with weights at the leaves only: the comparison class for
the optimality claim.  Any prefix-free code over the alphabet induces such a
tree whose cost is at most the code's weighted length. -/
inductive WTree : Type where
  | lf (w : Nat) : WTree
  | nd (l r : WTree) : WTree
deriving DecidableEq

/-- The total weight of a weight tree. -/
def WTree.wt : WTree → Nat
  | .lf w => w
  | .nd l r => l.wt + r.wt

/-- The cost of a weight tree: the sum over leaves of weight times depth,
computed structurally. -/
def WTree.cost : WTree → Nat
  | .lf _ => 0
  | .nd l r => l.cost + r.cost + l.wt + r.wt

/-- The height of a weight tree. -/
def WTree.height : WTree → Nat
  | .lf _ => 0
  | .nd l r => max l.height r.height + 1

/-- The `(weight, depth)` pairs of the leaves of a weight tree. -/
def WTree.dfringe : WTree → List (Nat × Nat)
  | .lf w => [(w, 0)]
  | .nd l r =>
      l.dfringe.map (fun e => (e.1, e.2 + 1)) ++ r.dfringe.map (fun e => (e.1, e.2 + 1))

/-- The multiset of `(weight, depth)` leaf pairs of a weight tree. -/
def dfm (t : WTree) : Multiset (Nat × Nat) := (t.dfringe : Multiset (Nat × Nat))

def msum (M : Multiset (Nat × Nat)) : Nat := (M.map (fun e => e.1 * e.2)).sum

/-- The `heapq` invariant: every element is `≤` (by `freq`, the comparison
`Node.__lt__` uses) its two children `2*i+1` and `2*i+2`; equivalently every
non-root element is `≥` its parent `(i-1)/2`. -/
def heapOrd (heap : List Node) : Prop :=
  ∀ i, 0 < i → i < heap.length → (getN heap ((i - 1) / 2)).freq ≤ (getN heap i).freq

/-- Strip a leading bit `b` from a `(weight, code)` pair; `none` if the code
is empty or starts with the other bit.  Used to partition a prefix-free code
family by first bit when building the comparison tree. -/
def stripBit (b : Bool) : Nat × List Bool → Option (Nat × List Bool)
  | (_, []) => none
  | (f, b' :: c) => if b' = b then some (f, c) else none

end Huffman

namespace Huffman

theorem natToBits_length (w : Nat) : ∀ n, (natToBits w n).length = w := by
  induction w with
  | zero => intro n; rfl
  | succ w ih => intro n; simp [natToBits, ih]

theorem bitsToNat_foldl (l : List Bool) :
    ∀ acc, l.foldl (fun a b => 2 * a + (if b then 1 else 0)) acc
      = acc * 2 ^ l.length + l.foldl (fun a b => 2 * a + (if b then 1 else 0)) 0 := by
  induction l with
  | nil => intro acc; simp
  | cons b t ih =>
      intro acc
      simp only [List.foldl_cons, List.length_cons]
      rw [ih (2 * acc + if b then 1 else 0), ih (2 * 0 + if b then 1 else 0)]
      ring

theorem bitsToNat_cons (b : Bool) (t : List Bool) :
    bitsToNat (b :: t) = (if b then 1 else 0) * 2 ^ t.length + bitsToNat t := by
  unfold bitsToNat
  simp only [List.foldl_cons]
  rw [bitsToNat_foldl t (2 * 0 + if b then 1 else 0)]
  ring

theorem bitsToNat_lt (l : List Bool) : bitsToNat l < 2 ^ l.length := by
  induction l with
  | nil => simp [bitsToNat]
  | cons b t ih =>
      rw [bitsToNat_cons]
      have h2 : 2 ^ (b :: t).length = 2 ^ t.length + 2 ^ t.length := by
        simp [List.length_cons, pow_succ]; ring
      rw [h2]
      cases b <;> simp <;> omega

theorem natToBits_add_high (w : Nat) : ∀ k m, natToBits w (k * 2 ^ w + m) = natToBits w m := by
  induction w with
  | zero => intro k m; rfl
  | succ w ih =>
      intro k m
      have hsplit : k * 2 ^ (w + 1) + m = 2 ^ w * (2 * k) + m := by ring
      have hdiv : (2 ^ w * (2 * k) + m) / 2 ^ w = m / 2 ^ w + 2 * k := by
        rw [Nat.add_comm (2 ^ w * (2 * k)) m]
        exact Nat.add_mul_div_left m (2 * k) (Nat.pos_pow_of_pos w (by omega))
      have hmod : ∀ a : Nat, (a + 2 * k) % 2 = a % 2 := fun a => by omega
      have hsplit' : k * 2 ^ (w + 1) + m = (2 * k) * 2 ^ w + m := by ring
      show decide (_ = 1) :: natToBits w (k * 2 ^ (w + 1) + m)
        = decide (_ = 1) :: natToBits w m
      rw [hsplit, hdiv, hmod, ← hsplit, hsplit', ih (2 * k) m]

theorem bitsToNat_natToBits (w : Nat) (n : Nat) : bitsToNat (natToBits w n) = n % 2 ^ w := by
  induction w with
  | zero => simp [natToBits, bitsToNat, Nat.mod_one]
  | succ w ih =>
      show bitsToNat (decide (n / 2 ^ w % 2 = 1) :: natToBits w n) = _
      rw [bitsToNat_cons, natToBits_length, ih]
      have hbit : (if decide (n / 2 ^ w % 2 = 1) = true then 1 else 0) = n / 2 ^ w % 2 := by
        rcases Nat.mod_two_eq_zero_or_one (n / 2 ^ w) with h | h <;> simp [h]
      rw [hbit]
      have hmul : 2 ^ (w + 1) = 2 ^ w * 2 := by ring
      rw [hmul, Nat.mod_mul]
      ring

theorem natToBits_bitsToNat : ∀ l : List Bool, natToBits l.length (bitsToNat l) = l := by
  intro l
  induction l with
  | nil => rfl
  | cons b t ih =>
      have hlt := bitsToNat_lt t
      have hval : bitsToNat (b :: t) = (if b then 1 else 0) * 2 ^ t.length + bitsToNat t :=
        bitsToNat_cons b t
      show decide (bitsToNat (b :: t) / 2 ^ t.length % 2 = 1) :: natToBits t.length (bitsToNat (b :: t)) = b :: t
      have hdiv : bitsToNat (b :: t) / 2 ^ t.length = if b then 1 else 0 := by
        rw [hval, mul_comm, Nat.add_comm,
          Nat.add_mul_div_left _ _ (Nat.pos_pow_of_pos t.length (by omega)),
          Nat.div_eq_of_lt hlt]
        simp
      have htail : natToBits t.length (bitsToNat (b :: t)) = t := by
        rw [hval, natToBits_add_high, ih]
      rw [hdiv, htail]
      cases b <;> simp

theorem take8_append (l t : List Bool) (h : l.length = 8) : (l ++ t).take 8 = l := by
  rw [← h]; exact List.take_left l t

theorem remove_pad_append (h8 rest : List Bool) (hlen : h8.length = 8) :
    remove_pad (h8 ++ rest) = some (if bitsToNat h8 = 0 then []
      else ((h8 ++ rest).take ((h8 ++ rest).length - bitsToNat h8)).drop 8) := by
  have htake : (h8 ++ rest).take 8 = h8 := take8_append h8 rest hlen
  obtain ⟨a, t, rfl⟩ : ∃ a t, h8 = a :: t := by
    cases h8 with
    | nil => simp at hlen
    | cons a t => exact ⟨a, t, rfl⟩
  simp only [List.cons_append] at htake ⊢
  rw [show remove_pad (a :: (t ++ rest)) = some (
        if bitsToNat ((a :: (t ++ rest)).take 8) = 0 then []
        else ((a :: (t ++ rest)).take
          ((a :: (t ++ rest)).length - bitsToNat ((a :: (t ++ rest)).take 8))).drop 8)
      from rfl]
  rw [htake]

theorem bytesToBits_cons (b : Nat) (bs : List Nat) :
    bytesToBits (b :: bs) = natToBits 8 b ++ bytesToBits bs := rfl

/-- Claim C9: decoding any byte sequence whose first (header) byte is 0
returns the empty symbol sequence, regardless of the payload and of the
reverse table, because `bit_string[8:-0]` is the empty slice. -/
theorem C9_zero_header_decodes_empty (rev : List (List Bool × Nat)) (rest : List Nat) :
    decompressBytes rev (0 :: rest) = some [] := by
  have hpad : remove_pad (natToBits 8 0 ++ bytesToBits rest) = some [] := by
    rw [remove_pad_append _ _ (natToBits_length 8 0)]
    simp [bitsToNat_natToBits]
  simp [decompressBytes, bytesToBits_cons, hpad, decode_text, decodeLoop]

/-- Claim C1 (code bug witness): the round trip fails on the single-character
input `"a"`: the lone symbol receives the empty code, so decoding the
encoding of `[0]` returns `[]`, not `[0]`. -/
theorem C1_roundtrip_fails_on_single_symbol :
    roundTrip [0] = some [] ∧ roundTrip [0] ≠ some [0] := by
  constructor
  · rfl
  · decide

/-- Claim C2 (code bug witness): for the input `"aaaa"` (four copies of
symbol 0) the code table generator assigns the symbol the empty bit string,
not a one-bit code, and the round trip returns the empty sequence. -/
theorem C2_single_symbol_gets_empty_code :
    (codeTablesOf (make_freq_dict [0, 0, 0, 0])).map Prod.fst = some [(0, [])] ∧
      roundTrip [0, 0, 0, 0] = some [] := by
  constructor
  · rfl
  · rfl

/-- Claim C3 (code bug witness): with the table built from `"aabc"`
(symbols `[0,0,1,2]`, codes `0 ↦ "0"`, `1 ↦ "10"`, `2 ↦ "11"`), the stream
`[1, 46]` leaves the unmatched non-empty candidate `"1"` after the scan, yet
decode returns `[0,0,1,2]` normally instead of signalling an error. -/
theorem C3_corrupt_stream_is_silently_decoded :
    codeTablesOf (make_freq_dict [0, 0, 1, 2]) =
      some ([(0, [false]), (1, [true, false]), (2, [true, true])],
        [([false], 0), ([true, false], 1), ([true, true], 2)]) ∧
      decompressBytes [([false], 0), ([true, false], 1), ([true, true], 2)] [1, 46] =
        some [0, 0, 1, 2] := by
  constructor
  · rfl
  · rfl

theorem foldl_counterAdd_replicate (c : Nat) :
    ∀ m k, List.foldl counterAdd [(c, k)] (List.replicate m c) = [(c, k + m)] := by
  intro m
  induction m with
  | zero => intro k; simp
  | succ m ih =>
      intro k
      show List.foldl counterAdd (counterAdd [(c, k)] c) (List.replicate m c) = _
      rw [show counterAdd [(c, k)] c = [(c, k + 1)] by simp [counterAdd]]
      rw [ih (k + 1)]
      ring_nf

theorem make_freq_dict_replicate (c n : Nat) (h : 1 ≤ n) :
    make_freq_dict (List.replicate n c) = [(c, n)] := by
  obtain ⟨m, rfl⟩ : ∃ m, n = m + 1 := ⟨n - 1, by omega⟩
  show List.foldl counterAdd (counterAdd [] c) (List.replicate m c) = _
  rw [show counterAdd [] c = [(c, 1)] from rfl, foldl_counterAdd_replicate c m 1]
  ring_nf

theorem concatCodes_replicate_empty (c : Nat) :
    ∀ n, concatCodes [(c, [])] (List.replicate n c) = some [] := by
  intro n
  induction n with
  | zero => rfl
  | succ n ih => simp [List.replicate_succ, concatCodes, dictGet?, ih]

/-- Claim C10: encoding `n ≥ 1` copies of any symbol `c` always produces the
same two-byte stream `[8, 0]` (header byte 8, one zero payload byte),
independent of `n` and `c`. -/
theorem C10_single_symbol_stream_is_constant (c n : Nat) (h : 1 ≤ n) :
    compressBytes (List.replicate n c) = some [8, 0] := by
  have h1 := make_freq_dict_replicate c n h
  have h2 := concatCodes_replicate_empty c n
  have h3 : codeTablesOf [(c, n)] = some ([(c, [])], [([], c)]) := rfl
  simp [compressBytes, h1, h3, encode_text, h2]
  rfl

theorem C10_witness : 1 ≤ 3 ∧ compressBytes (List.replicate 3 7) = some [8, 0] :=
  ⟨by decide, C10_single_symbol_stream_is_constant 7 3 (by decide)⟩

theorem encode_text_concat (codes : List (Nat × List Bool)) (text : List Nat)
    (bits : List Bool) (hc : concatCodes codes text = some bits) :
    encode_text codes text = some (natToBits 8 (8 - bits.length % 8) ++
      (bits ++ List.replicate (8 - bits.length % 8) false)) := by
  simp [encode_text, hc]

theorem encodedToBinGo_inv (fuel : Nat) :
    ∀ s : List Bool, s.length ≤ fuel → s.length % 8 = 0 →
      bytesToBits (encodedToBinGo fuel s) = s := by
  induction fuel with
  | zero =>
      intro s hle _
      have : s = [] := List.eq_nil_of_length_eq_zero (by omega)
      subst this; rfl
  | succ fuel ih =>
      intro s hle hmod
      cases s with
      | nil => rfl
      | cons a t =>
          have hlen8 : 8 ≤ (a :: t).length := by
            have : (a :: t).length ≠ 0 := by simp
            omega
          have htake : ((a :: t).take 8).length = 8 := by
            rw [List.length_take]; omega
          show bytesToBits (bitsToNat ((a :: t).take 8) :: encodedToBinGo fuel ((a :: t).drop 8))
            = a :: t
          rw [bytesToBits_cons]
          have hhead : natToBits 8 (bitsToNat ((a :: t).take 8)) = (a :: t).take 8 := by
            have h := natToBits_bitsToNat ((a :: t).take 8)
            rw [htake] at h
            exact h
          have hdrop : bytesToBits (encodedToBinGo fuel ((a :: t).drop 8)) = (a :: t).drop 8 := by
            apply ih
            · rw [List.length_drop]; omega
            · rw [List.length_drop]; omega
          rw [hhead, hdrop, List.take_append_drop]

theorem encoded_to_bin_inv (s : List Bool) (h : s.length % 8 = 0) :
    bytesToBits (encoded_to_bin s) = s :=
  encodedToBinGo_inv s.length s le_rfl h

theorem encoded_to_bin_head_append (h8 rest : List Bool) (hlen : h8.length = 8) :
    (encoded_to_bin (h8 ++ rest)).head? = some (bitsToNat h8) := by
  have htake : (h8 ++ rest).take 8 = h8 := take8_append h8 rest hlen
  obtain ⟨a, t, rfl⟩ : ∃ a t, h8 = a :: t := by
    cases h8 with
    | nil => simp at hlen
    | cons a t => exact ⟨a, t, rfl⟩
  simp only [List.cons_append] at htake ⊢
  show (encodedToBinGo (a :: (t ++ rest)).length (a :: (t ++ rest))).head? = _
  rw [show (a :: (t ++ rest)).length = (t ++ rest).length + 1 from rfl]
  show (bitsToNat ((a :: (t ++ rest)).take 8) :: _).head? = _
  rw [htake]
  rfl

theorem slice_middle (h8 mid post : List Bool) (h1 : h8.length = 8) (h2 : post.length = 8) :
    ((h8 ++ (mid ++ post)).take ((h8 ++ (mid ++ post)).length - 8)).drop 8 = mid := by
  have hlen : (h8 ++ (mid ++ post)).length - 8 = 8 + mid.length := by
    simp only [List.length_append, h1, h2]
    omega
  rw [hlen, List.take_append_eq_append_take,
    List.take_of_length_le (show h8.length ≤ 8 + mid.length by omega),
    show 8 + mid.length - h8.length = mid.length by omega,
    List.take_append_eq_append_take, List.take_length, Nat.sub_self, List.take_zero,
    List.append_nil, ← h1, List.drop_left]

/-- Claim C4: when the concatenated code bits already have length a multiple
of 8, encode still appends a full 8-bit pad (`8 - len % 8` gives 8, never 0),
records 8 in the header byte, and pad removal strips exactly those 8 trailing
bits, recovering the code bits. -/
theorem C4_aligned_input_gets_full_pad (codes : List (Nat × List Bool)) (text : List Nat)
    (bits : List Bool) (hc : concatCodes codes text = some bits)
    (hlen : bits.length % 8 = 0) :
    encode_text codes text = some (natToBits 8 8 ++ (bits ++ List.replicate 8 false)) ∧
      (encoded_to_bin (natToBits 8 8 ++ (bits ++ List.replicate 8 false))).head? = some 8 ∧
      remove_pad (bytesToBits
        (encoded_to_bin (natToBits 8 8 ++ (bits ++ List.replicate 8 false)))) = some bits := by
  have he := encode_text_concat codes text bits hc
  rw [hlen] at he
  norm_num at he
  have hrep : (List.replicate 8 false : List Bool).length = 8 := by simp
  refine ⟨he, ?_, ?_⟩
  · rw [encoded_to_bin_head_append _ _ (natToBits_length 8 8), bitsToNat_natToBits]
    norm_num
  · have hmod : (natToBits 8 8 ++ (bits ++ List.replicate 8 false)).length % 8 = 0 := by
      simp only [List.length_append, natToBits_length, List.length_replicate]
      omega
    rw [encoded_to_bin_inv _ hmod, remove_pad_append _ _ (natToBits_length 8 8),
      bitsToNat_natToBits, show (8 : Nat) % 2 ^ 8 = 8 by norm_num,
      if_neg (show ¬ (8 : Nat) = 0 by omega)]
    exact congrArg some (slice_middle _ bits _ (natToBits_length 8 8) hrep)

theorem C4_witness :
    concatCodes [(0, List.replicate 8 true)] [0] = some (List.replicate 8 true) ∧
      (List.replicate 8 true : List Bool).length % 8 = 0 ∧
      (encode_text [(0, List.replicate 8 true)] [0] =
          some (natToBits 8 8 ++ (List.replicate 8 true ++ List.replicate 8 false)) ∧
        (encoded_to_bin (natToBits 8 8 ++
          (List.replicate 8 true ++ List.replicate 8 false))).head? = some 8 ∧
        remove_pad (bytesToBits (encoded_to_bin (natToBits 8 8 ++
          (List.replicate 8 true ++ List.replicate 8 false)))) =
            some (List.replicate 8 true)) :=
  ⟨by decide, by decide,
    C4_aligned_input_gets_full_pad [(0, List.replicate 8 true)] [0]
      (List.replicate 8 true) (by decide) (by decide)⟩

/-- Claim C5 (counterexample): encoding the non-empty input consisting of the
single symbol 0 produces the stream `[8, 0]`, whose header byte 8 lies
outside the range 0–7 asserted by the claim. -/
theorem C5_counterexample_header_is_eight :
    compressBytes [0] = some (8 :: [0]) ∧ ¬ (8 ≤ 7) := ⟨rfl, by decide⟩

/-- Claim C5 (amended): the header byte of every stream produced by encode
from any input equals `8 - len % 8` and lies in the range 1–8 inclusive
(it is 8, not 0, in the byte-aligned case, and it is never 0). -/
theorem C5_header_byte_between_one_and_eight (codes : List (Nat × List Bool))
    (text : List Nat) (bits s : List Bool) (hc : concatCodes codes text = some bits)
    (he : encode_text codes text = some s) :
    (encoded_to_bin s).head? = some (8 - bits.length % 8) ∧
      1 ≤ 8 - bits.length % 8 ∧ 8 - bits.length % 8 ≤ 8 := by
  have h1 := encode_text_concat codes text bits hc
  rw [he] at h1
  obtain rfl := Option.some.inj h1
  refine ⟨?_, by omega, by omega⟩
  rw [encoded_to_bin_head_append _ _ (natToBits_length 8 _), bitsToNat_natToBits,
    Nat.mod_eq_of_lt (show 8 - bits.length % 8 < 2 ^ 8 by norm_num; omega)]

theorem getD_set_self {α : Type} :
    ∀ (l : List α) (i : Nat) (a d : α), i < l.length → (l.set i a).getD i d = a := by
  intro l
  induction l with
  | nil => intro i a d h; simp at h
  | cons x t ih =>
      intro i a d h
      cases i with
      | zero => rfl
      | succ i => exact ih i a d (by simpa using h)

theorem getD_set_ne {α : Type} :
    ∀ (l : List α) (i j : Nat) (a d : α), i ≠ j → (l.set i a).getD j d = l.getD j d := by
  intro l
  induction l with
  | nil => intro i j a d _; rfl
  | cons x t ih =>
      intro i j a d hne
      cases i with
      | zero =>
          cases j with
          | zero => exact absurd rfl hne
          | succ j => rfl
      | succ i =>
          cases j with
          | zero => rfl
          | succ j => exact ih i j a d (by omega)

theorem set_getD_self {α : Type} :
    ∀ (l : List α) (i : Nat) (d : α), i < l.length → l.set i (l.getD i d) = l := by
  intro l
  induction l with
  | nil => intro i d h; simp at h
  | cons x t ih =>
      intro i d h
      cases i with
      | zero => rfl
      | succ i => simpa using ih i d (by simpa using h)

theorem getD_cons_set_perm {α : Type} :
    ∀ (t : List α) (m : Nat) (a d : α), m < t.length →
      List.Perm (t.getD m d :: t.set m a) (a :: t) := by
  intro t
  induction t with
  | nil => intro m a d h; simp at h
  | cons b t ih =>
      intro m a d h
      cases m with
      | zero => exact List.Perm.swap a b t
      | succ m =>
          show List.Perm (t.getD m d :: b :: t.set m a) (a :: b :: t)
          exact ((List.Perm.swap b (t.getD m d) (t.set m a)).trans
            ((ih m a d (by simpa using h)).cons b)).trans (List.Perm.swap a b t)

theorem set_set_swap_perm {α : Type} :
    ∀ (l : List α) (i j : Nat) (d : α), i < l.length → j < l.length →
      List.Perm ((l.set i (l.getD j d)).set j (l.getD i d)) l := by
  intro l
  induction l with
  | nil => intro i j d h; simp at h
  | cons a t ih =>
      intro i j d hi hj
      cases i with
      | zero =>
          cases j with
          | zero => exact List.Perm.refl _
          | succ j =>
              show List.Perm (t.getD j d :: t.set j a) (a :: t)
              exact getD_cons_set_perm t j a d (by simpa using hj)
      | succ i =>
          cases j with
          | zero =>
              show List.Perm (t.getD i d :: t.set i a) (a :: t)
              exact getD_cons_set_perm t i a d (by simpa using hi)
          | succ j =>
              show List.Perm (a :: (t.set i (t.getD j d)).set j (t.getD i d)) (a :: t)
              exact (ih i j d (by simpa using hi) (by simpa using hj)).cons a

theorem set_set_perm_aux (heap : List Node) (pos q : Nat) (newitem : Node)
    (hpos : pos < heap.length) (hq : q < heap.length) (hne : q ≠ pos) :
    List.Perm ((heap.set pos (getN heap q)).set q newitem) (heap.set pos newitem) := by
  have h1 : getN heap q = (heap.set pos newitem).getD q Node.nil := by
    rw [getD_set_ne heap pos q newitem Node.nil (fun h => hne h.symm)]; rfl
  have h2 : newitem = (heap.set pos newitem).getD pos Node.nil :=
    (getD_set_self heap pos newitem Node.nil hpos).symm
  have h3 : (heap.set pos (getN heap q)).set q newitem
      = ((heap.set pos newitem).set pos ((heap.set pos newitem).getD q Node.nil)).set q
        ((heap.set pos newitem).getD pos Node.nil) := by
    rw [← h1, ← h2, List.set_set]
  rw [h3]
  exact set_set_swap_perm (heap.set pos newitem) pos q Node.nil
    (by simpa using hpos) (by simpa using hq)

theorem siftdownLoop_perm :
    ∀ (fuel : Nat) (heap : List Node) (startpos pos : Nat) (newitem : Node),
      pos < heap.length →
      List.Perm (siftdownLoop fuel heap startpos pos newitem) (heap.set pos newitem) := by
  intro fuel
  induction fuel with
  | zero => intro heap startpos pos newitem _; exact List.Perm.refl _
  | succ fuel ih =>
      intro heap startpos pos newitem hpos
      have hunfold : siftdownLoop (fuel + 1) heap startpos pos newitem =
          if startpos < pos then
            (if newitem.freq < (getN heap ((pos - 1) / 2)).freq then
              siftdownLoop fuel (heap.set pos (getN heap ((pos - 1) / 2))) startpos
                ((pos - 1) / 2) newitem
            else heap.set pos newitem)
          else heap.set pos newitem := rfl
      rw [hunfold]
      by_cases h : startpos < pos
      · rw [if_pos h]
        by_cases h2 : newitem.freq < (getN heap ((pos - 1) / 2)).freq
        · rw [if_pos h2]
          have hpp : (pos - 1) / 2 < pos := by omega
          have hrec := ih (heap.set pos (getN heap ((pos - 1) / 2))) startpos
            ((pos - 1) / 2) newitem (by rw [List.length_set]; omega)
          exact hrec.trans (set_set_perm_aux heap pos ((pos - 1) / 2) newitem hpos
            (by omega) (by omega))
        · rw [if_neg h2]
      · rw [if_neg h]

theorem siftdown_perm (heap : List Node) (startpos pos : Nat) (h : pos < heap.length) :
    List.Perm (siftdown heap startpos pos) heap := by
  have hp := siftdownLoop_perm pos heap startpos pos (getN heap pos) h
  have : heap.set pos (getN heap pos) = heap := set_getD_self heap pos Node.nil h
  rw [this] at hp
  exact hp

theorem siftupLoop_perm :
    ∀ (fuel : Nat) (heap : List Node) (endpos startpos pos : Nat) (newitem : Node),
      pos < heap.length → endpos ≤ heap.length →
      List.Perm (siftupLoop fuel heap endpos startpos pos newitem) (heap.set pos newitem) := by
  intro fuel
  induction fuel with
  | zero =>
      intro heap endpos startpos pos newitem hpos _
      exact siftdown_perm (heap.set pos newitem) startpos pos (by simpa using hpos)
  | succ fuel ih =>
      intro heap endpos startpos pos newitem hpos hend
      have hunfold : siftupLoop (fuel + 1) heap endpos startpos pos newitem =
          if 2 * pos + 1 < endpos then
            siftupLoop fuel
              (heap.set pos (getN heap (if 2 * pos + 1 + 1 < endpos ∧
                  ¬ (getN heap (2 * pos + 1)).freq < (getN heap (2 * pos + 1 + 1)).freq
                then 2 * pos + 1 + 1 else 2 * pos + 1)))
              endpos startpos
              (if 2 * pos + 1 + 1 < endpos ∧
                  ¬ (getN heap (2 * pos + 1)).freq < (getN heap (2 * pos + 1 + 1)).freq
                then 2 * pos + 1 + 1 else 2 * pos + 1) newitem
          else siftdown (heap.set pos newitem) startpos pos := rfl
      rw [hunfold]
      by_cases hc : 2 * pos + 1 < endpos
      · rw [if_pos hc]
        set q := if 2 * pos + 1 + 1 < endpos ∧
            ¬ (getN heap (2 * pos + 1)).freq < (getN heap (2 * pos + 1 + 1)).freq
          then 2 * pos + 1 + 1 else 2 * pos + 1 with hqdef
        have hqlt : q < endpos := by
          rw [hqdef]; split
          · omega
          · exact hc
        have hqpos : pos < q := by rw [hqdef]; split <;> omega
        have hrec := ih (heap.set pos (getN heap q)) endpos startpos q newitem
          (by rw [List.length_set]; omega) (by rw [List.length_set]; omega)
        exact hrec.trans (set_set_perm_aux heap pos q newitem hpos (by omega) (by omega))
      · rw [if_neg hc]
        exact siftdown_perm (heap.set pos newitem) startpos pos (by simpa using hpos)

theorem siftup_perm (heap : List Node) (pos : Nat) (h : pos < heap.length) :
    List.Perm (siftup heap pos) heap := by
  have hp := siftupLoop_perm heap.length heap heap.length pos pos (getN heap pos) h le_rfl
  have : heap.set pos (getN heap pos) = heap := set_getD_self heap pos Node.nil h
  rw [this] at hp
  exact hp

theorem getN_append_singleton : ∀ (l : List Node) (x : Node), getN (l ++ [x]) l.length = x := by
  intro l
  induction l with
  | nil => intro x; rfl
  | cons a t ih => intro x; exact ih x

theorem heappush_perm (heap : List Node) (item : Node) :
    List.Perm (heappush heap item) (item :: heap) := by
  have hlen : heap.length < (heap ++ [item]).length := by simp
  have hget : getN (heap ++ [item]) heap.length = item := getN_append_singleton heap item
  have hp := siftdownLoop_perm heap.length (heap ++ [item]) 0 heap.length
    (getN (heap ++ [item]) heap.length) hlen
  rw [hget] at hp
  have hset : (heap ++ [item]).set heap.length item = heap ++ [item] := by
    have h0 := set_getD_self (heap ++ [item]) heap.length Node.nil hlen
    rw [show (heap ++ [item]).getD heap.length Node.nil = item from hget] at h0
    exact h0
  rw [hset] at hp
  show List.Perm (siftdown (heap ++ [item]) 0 heap.length) (item :: heap)
  unfold siftdown
  rw [hget]
  exact hp.trans (List.perm_append_singleton item heap)

theorem heappop_none_iff (heap : List Node) : heappop heap = none ↔ heap = [] := by
  constructor
  · intro h
    cases hg : heap.getLast? with
    | none => exact List.getLast?_eq_none_iff.mp hg
    | some x =>
        unfold heappop at h
        rw [hg] at h
        cases hd : heap.dropLast with
        | nil => rw [hd] at h; simp at h
        | cons r0 rt => rw [hd] at h; simp at h
  · intro h; subst h; rfl

theorem heappop_perm (heap : List Node) (x : Node) (h' : List Node)
    (h : heappop heap = some (x, h')) : List.Perm (x :: h') heap := by
  unfold heappop at h
  cases hg : heap.getLast? with
  | none => rw [hg] at h; simp at h
  | some lastelt =>
      rw [hg] at h
      have hdecomp : heap.dropLast ++ [lastelt] = heap :=
        List.dropLast_append_getLast? lastelt (Option.mem_def.mpr hg)
      cases hd : heap.dropLast with
      | nil =>
          rw [hd] at h
          simp at h
          obtain ⟨rfl, rfl⟩ := h
          rw [hd] at hdecomp
          rw [← hdecomp]
          exact List.Perm.refl _
      | cons r0 rt =>
          rw [hd] at h
          simp at h
          obtain ⟨rfl, rfl⟩ := h
          rw [hd] at hdecomp
          have hsift : List.Perm (siftup ((r0 :: rt).set 0 lastelt) 0) (lastelt :: rt) :=
            siftup_perm (lastelt :: rt) 0 (by simp)
          have hperm : List.Perm (r0 :: siftup ((r0 :: rt).set 0 lastelt) 0)
              ((r0 :: rt) ++ [lastelt]) :=
            ((hsift.cons r0).trans (List.Perm.swap lastelt r0 rt)).trans
              (List.perm_append_singleton lastelt (r0 :: rt)).symm
          rw [hdecomp] at hperm
          exact hperm

theorem C5_witness :
    concatCodes [(0, List.replicate 8 true)] [0] = some (List.replicate 8 true) ∧
      encode_text [(0, List.replicate 8 true)] [0] =
        some (natToBits 8 8 ++ (List.replicate 8 true ++ List.replicate 8 false)) ∧
      ((encoded_to_bin (natToBits 8 8 ++
          (List.replicate 8 true ++ List.replicate 8 false))).head? =
        some (8 - (List.replicate 8 true : List Bool).length % 8) ∧
        1 ≤ 8 - (List.replicate 8 true : List Bool).length % 8 ∧
        8 - (List.replicate 8 true : List Bool).length % 8 ≤ 8) :=
  ⟨by decide, by decide,
    C5_header_byte_between_one_and_eight [(0, List.replicate 8 true)] [0]
      (List.replicate 8 true) _ (by decide) (by decide)⟩

theorem heapKeys_cons (n : Node) (h : List Node) :
    heapKeys (n :: h) = leafKeys n ++ heapKeys h := rfl

theorem heapKeys_perm {h1 h2 : List Node} (p : List.Perm h1 h2) :
    List.Perm (heapKeys h1) (heapKeys h2) := by
  induction p with
  | nil => exact List.Perm.refl _
  | cons x _ ih =>
      rw [heapKeys_cons, heapKeys_cons]
      exact ih.append_left _
  | swap x y l =>
      rw [heapKeys_cons, heapKeys_cons, heapKeys_cons, heapKeys_cons,
        ← List.append_assoc, ← List.append_assoc]
      exact List.Perm.append_right _ List.perm_append_comm
  | trans _ _ ih1 ih2 => exact ih1.trans ih2

theorem wf_merge (n1 n2 : Node) (h1 : wf n1 = true) (h2 : wf n2 = true) :
    wf (.mk none (n1.freq + n2.freq) n1 n2) = true := by
  cases n1 with
  | nil => exact absurd h1 (by simp [wf])
  | mk k1 f1 l1 r1 =>
      cases n2 with
      | nil => exact absurd h2 (by simp [wf])
      | mk k2 f2 l2 r2 =>
          show ((f1 + f2 == f1 + f2) && wf (.mk k1 f1 l1 r1) && wf (.mk k2 f2 l2 r2)) = true
          simp [h1, h2]

theorem buildTreeLoop_spec :
    ∀ (fuel : Nat) (heap : List Node),
      1 ≤ heap.length → heap.length ≤ fuel + 1 → (∀ n ∈ heap, wf n = true) →
      ∃ root, buildTreeLoop fuel heap = [root] ∧ wf root = true ∧
        List.Perm (heapKeys heap) (leafKeys root) := by
  intro fuel
  induction fuel with
  | zero =>
      intro heap h1 h2 hwf
      obtain ⟨root, rfl⟩ := List.length_eq_one.mp (show heap.length = 1 by omega)
      exact ⟨root, rfl, hwf root (by simp), by simp [heapKeys_cons, heapKeys]⟩
  | succ fuel ih =>
      intro heap h1 h2 hwf
      by_cases hlen : heap.length > 1
      · obtain ⟨⟨n1, h1'⟩, hpop1⟩ : ∃ p, heappop heap = some p := by
          cases hp : heappop heap with
          | none =>
              rw [heappop_none_iff] at hp
              subst hp
              simp at hlen
          | some p => exact ⟨p, rfl⟩
        have hperm1 := heappop_perm heap n1 h1' hpop1
        have hlen1 : h1'.length + 1 = heap.length := by
          have := hperm1.length_eq
          simpa using this
        obtain ⟨⟨n2, h2'⟩, hpop2⟩ : ∃ p, heappop h1' = some p := by
          cases hp : heappop h1' with
          | none =>
              rw [heappop_none_iff] at hp
              subst hp
              simp at hlen1
              omega
          | some p => exact ⟨p, rfl⟩
        have hperm2 := heappop_perm h1' n2 h2' hpop2
        have hlen2 : h2'.length + 1 = h1'.length := by
          have := hperm2.length_eq
          simpa using this
        have hstep : buildTreeLoop (fuel + 1) heap =
            buildTreeLoop fuel
              (heappush h2' (Node.mk none (n1.freq + n2.freq) n1 n2)) := by
          show (if heap.length > 1 then
              match heappop heap with
              | none => heap
              | some (node_1, h1) =>
                  match heappop h1 with
                  | none => h1
                  | some (node_2, h2) =>
                      buildTreeLoop fuel
                        (heappush h2 (Node.mk none (node_1.freq + node_2.freq) node_1 node_2))
            else heap) = _
          rw [if_pos hlen, hpop1]
          show (match heappop h1' with
            | none => h1'
            | some (node_2, h2) =>
                buildTreeLoop fuel
                  (heappush h2 (Node.mk none (n1.freq + node_2.freq) n1 node_2))) = _
          rw [hpop2]
        have hwf1 : wf n1 = true := hwf n1 (hperm1.subset (List.mem_cons_self n1 h1'))
        have hwf2 : wf n2 = true := hwf n2 (hperm1.subset (List.mem_cons_of_mem n1
          (hperm2.subset (List.mem_cons_self n2 h2'))))
        have hwfnew : wf (Node.mk none (n1.freq + n2.freq) n1 n2) = true :=
          wf_merge n1 n2 hwf1 hwf2
        have hpushperm := heappush_perm h2' (Node.mk none (n1.freq + n2.freq) n1 n2)
        have hwfall : ∀ n ∈ heappush h2' (Node.mk none (n1.freq + n2.freq) n1 n2),
            wf n = true := by
          intro n hn
          rcases List.mem_cons.mp (hpushperm.subset hn) with rfl | hmem
          · exact hwfnew
          · exact hwf n (hperm1.subset (List.mem_cons_of_mem n1
              (hperm2.subset (List.mem_cons_of_mem n2 hmem))))
        have hlenpush : (heappush h2' (Node.mk none (n1.freq + n2.freq) n1 n2)).length
            = h2'.length + 1 := by
          have := hpushperm.length_eq
          simpa using this
        obtain ⟨root, hroot, hwfroot, hkeys⟩ :=
          ih (heappush h2' (Node.mk none (n1.freq + n2.freq) n1 n2))
            (by omega) (by omega) hwfall
        refine ⟨root, by rw [hstep, hroot], hwfroot, ?_⟩
        have hchain1 : List.Perm (heapKeys heap)
            (leafKeys n1 ++ (leafKeys n2 ++ heapKeys h2')) := by
          refine (heapKeys_perm hperm1).symm.trans ?_
          rw [heapKeys_cons]
          refine List.Perm.append_left _ ?_
          have := heapKeys_perm hperm2
          rw [heapKeys_cons] at this
          exact this.symm
        have hnewkeys : leafKeys (Node.mk none (n1.freq + n2.freq) n1 n2)
            = leafKeys n1 ++ leafKeys n2 := by
          simp [leafKeys]
        have hchain2 : List.Perm
            (heapKeys (heappush h2' (Node.mk none (n1.freq + n2.freq) n1 n2)))
            ((leafKeys n1 ++ leafKeys n2) ++ heapKeys h2') := by
          refine (heapKeys_perm hpushperm).trans ?_
          rw [heapKeys_cons, hnewkeys]
        refine hchain1.trans ?_
        rw [← List.append_assoc]
        exact hchain2.symm.trans hkeys
      · obtain ⟨root, rfl⟩ := List.length_eq_one.mp (show heap.length = 1 by omega)
        refine ⟨root, ?_, hwf root (by simp), by simp [heapKeys_cons, heapKeys]⟩
        show (if ([root] : List Node).length > 1 then _ else _) = _
        rw [if_neg (by simp)]

theorem build_heap_foldl_perm :
    ∀ (fd : List (Nat × Nat)) (acc : List Node),
      List.Perm
        (List.foldl (fun h kv => heappush h (Node.mk (some kv.1) kv.2 .nil .nil)) acc fd)
        (fd.map (fun kv => Node.mk (some kv.1) kv.2 .nil .nil) ++ acc) := by
  intro fd
  induction fd with
  | nil => intro acc; exact List.Perm.refl _
  | cons kv rest ih =>
      intro acc
      show List.Perm
        (List.foldl _ (heappush acc (Node.mk (some kv.1) kv.2 .nil .nil)) rest) _
      refine (ih (heappush acc (Node.mk (some kv.1) kv.2 .nil .nil))).trans ?_
      refine (List.Perm.append_left _ (heappush_perm acc _)).trans ?_
      exact List.perm_middle

theorem build_heap_perm (fd : List (Nat × Nat)) :
    List.Perm (build_heap fd)
      (fd.map (fun kv => Node.mk (some kv.1) kv.2 .nil .nil)) := by
  have h := build_heap_foldl_perm fd []
  simpa using h

theorem heapKeys_leaves :
    ∀ fd : List (Nat × Nat),
      heapKeys (fd.map (fun kv => Node.mk (some kv.1) kv.2 .nil .nil)) = fd.map Prod.fst := by
  intro fd
  induction fd with
  | nil => rfl
  | cons kv rest ih =>
      show heapKeys (Node.mk (some kv.1) kv.2 .nil .nil :: _) = _
      rw [heapKeys_cons, ih]
      rfl

theorem build_tree_spec (fd : List (Nat × Nat)) (hne : fd ≠ []) :
    ∃ root, build_tree (build_heap fd) = [root] ∧ wf root = true ∧
      List.Perm (fd.map Prod.fst) (leafKeys root) := by
  have hbperm := build_heap_perm fd
  have hblen : (build_heap fd).length = fd.length := by
    have := hbperm.length_eq
    simpa using this
  have hfdlen : 1 ≤ fd.length := by
    cases fd with
    | nil => exact absurd rfl hne
    | cons a t => simp
  have hwfall : ∀ n ∈ build_heap fd, wf n = true := by
    intro n hn
    have hmem := hbperm.subset hn
    obtain ⟨kv, _, rfl⟩ := List.mem_map.mp hmem
    rfl
  obtain ⟨root, hroot, hwfroot, hkeys⟩ :=
    buildTreeLoop_spec (build_heap fd).length (build_heap fd)
      (by omega) (by omega) hwfall
  refine ⟨root, hroot, hwfroot, ?_⟩
  have hfirst : List.Perm (fd.map Prod.fst) (heapKeys (build_heap fd)) := by
    rw [← heapKeys_leaves fd]
    exact (heapKeys_perm hbperm).symm
  exact hfirst.trans hkeys

/-- Claim C7: for every non-empty frequency table, the merge loop leaves
exactly one root node, and in that tree every key-less internal node has
exactly two children and a frequency equal to the sum of its children's
frequencies (checked recursively by the predicate `wf`). -/
theorem C7_tree_invariants (fd : List (Nat × Nat)) (hne : fd ≠ []) :
    (build_tree (build_heap fd)).length = 1 ∧
      (build_tree (build_heap fd)).all wf = true := by
  obtain ⟨root, hroot, hwfroot, _⟩ := build_tree_spec fd hne
  rw [hroot]
  simp [hwfroot]

theorem C7_witness :
    (build_tree (build_heap [(5, 3), (6, 1), (7, 2)])).length = 1 ∧
      (build_tree (build_heap [(5, 3), (6, 1), (7, 2)])).all wf = true :=
  C7_tree_invariants [(5, 3), (6, 1), (7, 2)] (by decide)


theorem build_codes_fst :
    ∀ (n : Node) (p : List Bool)
      (tabs : List (Nat × List Bool) × List (List Bool × Nat)),
      (build_codes n p tabs).1 =
        (entriesOf n p).foldl (fun d kv => dictSet d kv.1 kv.2) tabs.1 := by
  intro n
  induction n with
  | nil => intro p tabs; rfl
  | mk key f l r ihl ihr =>
      intro p tabs
      cases key with
      | some k =>
          show (build_codes r (p ++ [true])
            (build_codes l (p ++ [false]) (dictSet tabs.1 k p, dictSet tabs.2 p k))).1 = _
          rw [ihr, ihl]
          show _ = ([(k, p)] ++ entriesOf l (p ++ [false]) ++
            entriesOf r (p ++ [true])).foldl _ tabs.1
          rw [List.foldl_append, List.foldl_append]
          rfl
      | none =>
          show (build_codes r (p ++ [true]) (build_codes l (p ++ [false]) tabs)).1 = _
          rw [ihr, ihl]
          show _ = (([] : List (Nat × List Bool)) ++ entriesOf l (p ++ [false]) ++
            entriesOf r (p ++ [true])).foldl _ tabs.1
          rw [List.foldl_append, List.foldl_append]
          rfl

theorem entriesOf_map_fst :
    ∀ (n : Node) (p : List Bool), (entriesOf n p).map Prod.fst = leafKeys n := by
  intro n
  induction n with
  | nil => intro p; rfl
  | mk key f l r ihl ihr =>
      intro p
      simp only [entriesOf, leafKeys, List.map_append, ihl, ihr, List.map_map]
      cases key <;> rfl

theorem dictGet?_append_of_none {α β : Type} [DecidableEq α] :
    ∀ (d₁ d₂ : List (α × β)) (k : α), dictGet? d₁ k = none →
      dictGet? (d₁ ++ d₂) k = dictGet? d₂ k := by
  intro d₁
  induction d₁ with
  | nil => intro d₂ k _; rfl
  | cons kv rest ih =>
      intro d₂ k h
      obtain ⟨k', v'⟩ := kv
      simp only [dictGet?] at h
      show (if k' = k then some v' else dictGet? (rest ++ d₂) k) = _
      by_cases hk : k' = k
      · rw [if_pos hk] at h; exact absurd h (by simp)
      · rw [if_neg hk] at h ⊢; exact ih d₂ k h

theorem dictSet_eq_append {α β : Type} [DecidableEq α] :
    ∀ (d : List (α × β)) (k : α) (v : β), dictGet? d k = none →
      dictSet d k v = d ++ [(k, v)] := by
  intro d
  induction d with
  | nil => intro k v _; rfl
  | cons kv rest ih =>
      intro k v h
      obtain ⟨k', v'⟩ := kv
      simp only [dictGet?] at h
      show (if k' = k then (k, v) :: rest else (k', v') :: dictSet rest k v) = _
      by_cases hk : k' = k
      · rw [if_pos hk] at h; exact absurd h (by simp)
      · rw [if_neg hk] at h
        rw [if_neg hk, ih k v h]
        rfl

theorem foldl_dictSet_nodup {α β : Type} [DecidableEq α] :
    ∀ (l acc : List (α × β)),
      (∀ kv ∈ l, dictGet? acc kv.1 = none) → (l.map Prod.fst).Nodup →
      l.foldl (fun d kv => dictSet d kv.1 kv.2) acc = acc ++ l := by
  intro l
  induction l with
  | nil => intro acc _ _; simp
  | cons kv rest ih =>
      intro acc hnone hnodup
      obtain ⟨k, v⟩ := kv
      simp only [List.map_cons, List.nodup_cons] at hnodup
      obtain ⟨hknotin, hnodup'⟩ := hnodup
      have h1 : ∀ kv' ∈ rest, dictGet? (acc ++ [(k, v)]) kv'.1 = none := by
        intro kv' hm
        rw [dictGet?_append_of_none acc _ kv'.1 (hnone kv' (List.mem_cons_of_mem _ hm))]
        have hk : ¬ k = kv'.1 := by
          intro heq
          exact hknotin (heq ▸ List.mem_map_of_mem Prod.fst hm)
        show (if k = kv'.1 then some v else dictGet? [] kv'.1) = none
        rw [if_neg hk]
        rfl
      show rest.foldl _ (dictSet acc k v) = _
      rw [dictSet_eq_append acc k v (hnone (k, v) (List.mem_cons_self _ _)),
        ih (acc ++ [(k, v)]) h1 hnodup']
      simp

theorem dictGet?_mem {α β : Type} [DecidableEq α] :
    ∀ (d : List (α × β)) (k : α) (v : β), dictGet? d k = some v → (k, v) ∈ d := by
  intro d
  induction d with
  | nil => intro k v h; exact absurd h (by simp [dictGet?])
  | cons kv rest ih =>
      intro k v h
      obtain ⟨k', v'⟩ := kv
      simp only [dictGet?] at h
      by_cases hk : k' = k
      · rw [if_pos hk] at h
        subst hk
        obtain rfl := Option.some.inj h
        exact List.mem_cons_self _ _
      · rw [if_neg hk] at h
        exact List.mem_cons_of_mem _ (ih k v h)

theorem entriesOf_code_extends :
    ∀ (n : Node) (p : List Bool) (s : Nat) (cs : List Bool),
      (s, cs) ∈ entriesOf n p → ∃ q, cs = p ++ q := by
  intro n
  induction n with
  | nil => intro p s cs h; exact absurd h (by simp [entriesOf])
  | mk key f l r ihl ihr =>
      intro p s cs h
      simp only [entriesOf, List.mem_append] at h
      rcases h with (h | h) | h
      · rcases List.mem_map.mp h with ⟨k, _, heq⟩
        obtain ⟨rfl, rfl⟩ := Prod.mk.injEq k p s cs ▸ And.intro
          (congrArg Prod.fst heq) (congrArg Prod.snd heq)
        exact ⟨[], by simp⟩
      · obtain ⟨q, rfl⟩ := ihl (p ++ [false]) s cs h
        exact ⟨false :: q, by simp⟩
      · obtain ⟨q, rfl⟩ := ihr (p ++ [true]) s cs h
        exact ⟨true :: q, by simp⟩

theorem entriesOf_mk (key : Option Nat) (f : Nat) (l r : Node) (p : List Bool) :
    entriesOf (.mk key f l r) p = key.toList.map (fun k => (k, p)) ++
      entriesOf l (p ++ [false]) ++ entriesOf r (p ++ [true]) := rfl

theorem entriesOf_nil (p : List Bool) : entriesOf .nil p = [] := rfl

theorem entriesOf_pf :
    ∀ (n : Node), wf n = true → ∀ (p : List Bool) (s t : Nat) (cs ct : List Bool),
      (s, cs) ∈ entriesOf n p → (t, ct) ∈ entriesOf n p → s ≠ t → ¬ cs <+: ct := by
  intro n
  induction n with
  | nil => intro hwf; exact absurd hwf (by simp [wf])
  | mk key f l r ihl ihr =>
      intro hwf p s t cs ct hs ht hne
      cases key with
      | some k =>
          cases l with
          | mk k1 f1 l1 r1 => exact absurd hwf (by simp [wf])
          | nil =>
              cases r with
              | mk k2 f2 l2 r2 => exact absurd hwf (by simp [wf])
              | nil =>
                  rw [entriesOf_mk] at hs ht
                  simp only [entriesOf_nil, Option.toList_some, List.map_cons, List.map_nil,
                    List.append_nil, List.mem_singleton, Prod.mk.injEq] at hs ht
                  exact absurd (hs.1.trans ht.1.symm) hne
      | none =>
          cases l with
          | nil => exact absurd hwf (by simp [wf])
          | mk k1 f1 l1 r1 =>
              cases r with
              | nil => exact absurd hwf (by simp [wf])
              | mk k2 f2 l2 r2 =>
                  have hwfc : wf (.mk k1 f1 l1 r1) = true ∧ wf (.mk k2 f2 l2 r2) = true := by
                    have h := hwf
                    simp only [wf, Bool.and_eq_true] at h
                    exact ⟨h.1.2, h.2⟩
                  rw [entriesOf_mk] at hs ht
                  simp only [Option.toList_none, List.map_nil, List.nil_append,
                    List.mem_append] at hs ht
                  rcases hs with hs | hs <;> rcases ht with ht | ht
                  · exact ihl hwfc.1 (p ++ [false]) s t cs ct hs ht hne
                  · obtain ⟨q1, rfl⟩ := entriesOf_code_extends _ _ _ _ hs
                    obtain ⟨q2, rfl⟩ := entriesOf_code_extends _ _ _ _ ht
                    intro hpre
                    rw [List.append_assoc, List.append_assoc] at hpre
                    have hcons := (List.prefix_append_right_inj p).mp hpre
                    have := (List.cons_prefix_cons.mp hcons).1
                    simp at this
                  · obtain ⟨q1, rfl⟩ := entriesOf_code_extends _ _ _ _ hs
                    obtain ⟨q2, rfl⟩ := entriesOf_code_extends _ _ _ _ ht
                    intro hpre
                    rw [List.append_assoc, List.append_assoc] at hpre
                    have hcons := (List.prefix_append_right_inj p).mp hpre
                    have := (List.cons_prefix_cons.mp hcons).1
                    simp at this
                  · exact ihr hwfc.2 (p ++ [true]) s t cs ct hs ht hne

/-- Claim C6: for every non-empty frequency table with pairwise-distinct
keys, the code table obtained by building the tree and traversing it is
prefix-free: for distinct symbols, neither symbol's code is a prefix of the
other's. -/
theorem C6_codes_prefix_free (fd : List (Nat × Nat)) (hne : fd ≠ [])
    (hnodup : (fd.map Prod.fst).Nodup) (codes : List (Nat × List Bool))
    (rev : List (List Bool × Nat)) (htab : codeTablesOf fd = some (codes, rev))
    (s t : Nat) (cs ct : List Bool) (hst : s ≠ t)
    (hs : dictGet? codes s = some cs) (ht : dictGet? codes t = some ct) :
    ¬ cs <+: ct := by
  obtain ⟨root, hroot, hwfroot, hkeys⟩ := build_tree_spec fd hne
  have hpop : heappop (build_tree (build_heap fd)) = some (root, []) := by
    rw [hroot]; rfl
  have htab' : build_codes root [] ([], []) = (codes, rev) := by
    have h := htab
    rw [codeTablesOf, hpop] at h
    simpa using h
  have hcodes : codes = (build_codes root [] ([], [])).1 := by rw [htab']
  have hnodupkeys : (leafKeys root).Nodup := (hkeys.nodup_iff).mp hnodup
  have hentries : codes = entriesOf root [] := by
    rw [hcodes, build_codes_fst]
    have h := foldl_dictSet_nodup (entriesOf root []) []
      (fun kv _ => rfl) (by rw [entriesOf_map_fst]; exact hnodupkeys)
    simpa using h
  exact entriesOf_pf root hwfroot [] s t cs ct
    (dictGet?_mem _ _ _ (hentries ▸ hs)) (dictGet?_mem _ _ _ (hentries ▸ ht)) hst

theorem C6_witness : ¬ ([false] <+: [true]) :=
  C6_codes_prefix_free [(0, 1), (1, 1)] (by decide) (by decide)
    [(0, [false]), (1, [true])] [([false], 0), ([true], 1)] rfl
    0 1 [false] [true] (by decide) rfl rfl


theorem sum_map_add_distrib {α : Type} (l : List α) (f g : α → Nat) :
    (l.map (fun x => f x + g x)).sum = (l.map f).sum + (l.map g).sum := by
  induction l with
  | nil => rfl
  | cons a t ih => simp [ih]; omega

theorem WTree.dfringe_ne_nil (t : WTree) : t.dfringe ≠ [] := by
  cases t with
  | lf w => simp [dfringe]
  | nd l r =>
      simp only [dfringe, ne_eq, List.append_eq_nil]
      intro ⟨h1, _⟩
      exact dfringe_ne_nil l (by simpa using h1)

theorem card_dfm_pos (t : WTree) : 1 ≤ Multiset.card (dfm t) := by
  have h := WTree.dfringe_ne_nil t
  cases hd : t.dfringe with
  | nil => exact absurd hd h
  | cons a l => simp [dfm, hd]

theorem wt_eq_sum (t : WTree) : t.wt = (t.dfringe.map Prod.fst).sum := by
  induction t with
  | lf w => simp [WTree.wt, WTree.dfringe]
  | nd l r ihl ihr =>
      simp only [WTree.wt, WTree.dfringe, List.map_append, List.sum_append, List.map_map]
      rw [ihl, ihr]
      congr 1

theorem cost_eq_sum (t : WTree) : t.cost = (t.dfringe.map (fun e => e.1 * e.2)).sum := by
  induction t with
  | lf w => simp [WTree.cost, WTree.dfringe]
  | nd l r ihl ihr =>
      simp only [WTree.cost, WTree.dfringe, List.map_append, List.sum_append, List.map_map]
      have hl : ((fun e : Nat × Nat => e.1 * e.2) ∘ fun e : Nat × Nat => (e.1, e.2 + 1))
          = fun e : Nat × Nat => e.1 * e.2 + e.1 := by
        funext e; show e.1 * (e.2 + 1) = _; ring
      rw [hl, sum_map_add_distrib, sum_map_add_distrib, ihl, ihr, wt_eq_sum l, wt_eq_sum r]
      ring

/-- Cost and weight of a weight tree as sums over its leaf multiset. -/
theorem cost_eq_msum (t : WTree) :
    t.cost = ((dfm t).map (fun e => e.1 * e.2)).sum := by
  rw [cost_eq_sum]
  simp [dfm]

theorem wt_eq_msum (t : WTree) : t.wt = ((dfm t).map Prod.fst).sum := by
  rw [wt_eq_sum]
  simp [dfm]

theorem dfm_nd (l r : WTree) :
    dfm (.nd l r) = (dfm l).map (fun e => (e.1, e.2 + 1)) +
      (dfm r).map (fun e => (e.1, e.2 + 1)) := by
  simp [dfm, WTree.dfringe]

theorem dfm_lf (w : Nat) : dfm (.lf w) = {(w, 0)} := rfl

theorem dfm_nd_comm (l r : WTree) : dfm (.nd l r) = dfm (.nd r l) := by
  rw [dfm_nd, dfm_nd, add_comm]

theorem height_nd_comm (l r : WTree) : (WTree.nd l r).height = (WTree.nd r l).height := by
  simp [WTree.height, Nat.max_comm]

theorem depth_le_height (t : WTree) : ∀ e ∈ dfm t, e.2 ≤ t.height := by
  induction t with
  | lf w =>
      intro e he
      rw [dfm_lf, Multiset.mem_singleton] at he
      subst he
      simp [WTree.height]
  | nd l r ihl ihr =>
      intro e he
      rw [dfm_nd] at he
      rcases Multiset.mem_add.mp he with h | h <;>
        obtain ⟨e', he', rfl⟩ := Multiset.mem_map.mp h
      · have := ihl e' he'
        simp only [WTree.height]
        omega
      · have := ihr e' he'
        simp only [WTree.height]
        omega

theorem mem_dfm_nd_left {l : WTree} {w d : Nat}
    (h : (w, d) ∈ (dfm l).map (fun e : Nat × Nat => (e.1, e.2 + 1))) :
    1 ≤ d ∧ (w, d - 1) ∈ dfm l := by
  obtain ⟨⟨w', d'⟩, he, heq⟩ := Multiset.mem_map.mp h
  obtain ⟨rfl, hd⟩ : w' = w ∧ d' + 1 = d := by simpa using heq
  refine ⟨by omega, ?_⟩
  rw [show d - 1 = d' by omega]
  exact he

/-- Revaluing one leaf: a tree whose leaf multiset contains `(a, d)` can be
turned into one where that leaf carries `v` instead, with the same shape. -/
theorem revalue :
    ∀ (t : WTree) (a d v : Nat) (C : Multiset (Nat × Nat)),
      dfm t = (a, d) ::ₘ C →
      ∃ t' : WTree, dfm t' = (v, d) ::ₘ C ∧ t'.height = t.height := by
  intro t
  induction t with
  | lf w =>
      intro a d v C h
      rw [dfm_lf] at h
      have hcard : Multiset.card C = 0 := by
        have := congrArg Multiset.card h
        simpa using this
      rw [Multiset.card_eq_zero] at hcard
      subst hcard
      rw [Multiset.cons_zero, Multiset.singleton_inj] at h
      obtain ⟨rfl, rfl⟩ := Prod.mk.injEq .. |>.mp h
      exact ⟨.lf v, by rw [dfm_lf, Multiset.cons_zero], rfl⟩
  | nd l r ihl ihr =>
      intro a d v C h
      have hmem : (a, d) ∈ dfm (.nd l r) := by rw [h]; exact Multiset.mem_cons_self _ _
      rw [dfm_nd] at hmem h
      rcases Multiset.mem_add.mp hmem with hside | hside
      · obtain ⟨hd1, hmem'⟩ := mem_dfm_nd_left hside
        obtain ⟨e, rfl⟩ : ∃ e, d = e + 1 := ⟨d - 1, by omega⟩
        rw [show e + 1 - 1 = e by omega] at hmem'
        set Cl := (dfm l).erase (a, e) with hCldef
        have hl : dfm l = (a, e) ::ₘ Cl := (Multiset.cons_erase hmem').symm
        obtain ⟨l', hl', hh⟩ := ihl a e v Cl hl
        rw [hl] at h
        simp only [Multiset.map_cons, Multiset.cons_add] at h
        have hC := (Multiset.cons_inj_right (a, e + 1)).mp h
        refine ⟨.nd l' r, ?_, by simp [WTree.height, hh]⟩
        rw [dfm_nd, hl']
        simp only [Multiset.map_cons, Multiset.cons_add]
        rw [hC]
      · obtain ⟨hd1, hmem'⟩ := mem_dfm_nd_left hside
        obtain ⟨e, rfl⟩ : ∃ e, d = e + 1 := ⟨d - 1, by omega⟩
        rw [show e + 1 - 1 = e by omega] at hmem'
        set Cr := (dfm r).erase (a, e) with hCrdef
        have hr : dfm r = (a, e) ::ₘ Cr := (Multiset.cons_erase hmem').symm
        obtain ⟨r', hr', hh⟩ := ihr a e v Cr hr
        rw [hr] at h
        simp only [Multiset.map_cons, Multiset.add_cons] at h
        have hC := (Multiset.cons_inj_right (a, e + 1)).mp h
        refine ⟨.nd l r', ?_, by simp [WTree.height, hh]⟩
        rw [dfm_nd, hr']
        simp only [Multiset.map_cons, Multiset.add_cons]
        rw [hC]

/-- Exchanging the positions of two leaves of a weight tree. -/
theorem swap_leaves (t : WTree) (a da b db : Nat) (E : Multiset (Nat × Nat))
    (h : dfm t = (a, da) ::ₘ (b, db) ::ₘ E) :
    ∃ t' : WTree, dfm t' = (a, db) ::ₘ (b, da) ::ₘ E ∧ t'.height = t.height := by
  obtain ⟨t₂, h₂, hh₂⟩ := revalue t a da b ((b, db) ::ₘ E) h
  rw [Multiset.cons_swap] at h₂
  obtain ⟨t₃, h₃, hh₃⟩ := revalue t₂ b db a ((b, da) ::ₘ E) h₂
  exact ⟨t₃, h₃, hh₃.trans hh₂⟩

theorem WTree.height_eq_zero {t : WTree} (h : t.height = 0) : ∃ w, t = .lf w := by
  cases t with
  | lf w => exact ⟨w, rfl⟩
  | nd l r => simp [height] at h

theorem card2_height {t : WTree} (h : 2 ≤ Multiset.card (dfm t)) : 1 ≤ t.height := by
  cases t with
  | lf w => rw [dfm_lf] at h; simp at h
  | nd l r => simp [WTree.height]

theorem exists_deepest (t : WTree) : ∃ x C, dfm t = (x, t.height) ::ₘ C := by
  induction t with
  | lf w => exact ⟨w, 0, by simp [dfm_lf, WTree.height]⟩
  | nd l r ihl ihr =>
      by_cases h : r.height ≤ l.height
      · obtain ⟨x, Cl, hl⟩ := ihl
        refine ⟨x, Cl.map (fun e => (e.1, e.2 + 1)) + (dfm r).map (fun e => (e.1, e.2 + 1)), ?_⟩
        rw [dfm_nd, hl]
        simp only [Multiset.map_cons, Multiset.cons_add]
        rw [show (WTree.nd l r).height = l.height + 1 by
          show max l.height r.height + 1 = _
          omega]
      · obtain ⟨x, Cr, hr⟩ := ihr
        refine ⟨x, (dfm l).map (fun e => (e.1, e.2 + 1)) + Cr.map (fun e => (e.1, e.2 + 1)), ?_⟩
        rw [dfm_nd, hr]
        simp only [Multiset.map_cons, Multiset.add_cons]
        rw [show (WTree.nd l r).height = r.height + 1 by
          show max l.height r.height + 1 = _
          omega]

theorem dhp_core (l r : WTree)
    (ihl : ∀ (x : Nat) (C : Multiset (Nat × Nat)),
      dfm l = (x, l.height) ::ₘ C → 1 ≤ l.height → ∃ y C', C = (y, l.height) ::ₘ C')
    (x : Nat) (C : Multiset (Nat × Nat))
    (h : dfm (.nd l r) = (x, (WTree.nd l r).height) ::ₘ C)
    (hxl : (x, (WTree.nd l r).height - 1) ∈ dfm l) :
    ∃ y C', C = (y, (WTree.nd l r).height) ::ₘ C' := by
  have hH : (WTree.nd l r).height = max l.height r.height + 1 := rfl
  have hdep := depth_le_height l _ hxl
  have hmaxl : l.height ≤ max l.height r.height := le_max_left _ _
  have hlh : l.height = (WTree.nd l r).height - 1 := by omega
  rw [← hlh] at hxl
  by_cases hl0 : l.height = 0
  · obtain ⟨w, rfl⟩ := WTree.height_eq_zero hl0
    rw [dfm_lf, Multiset.mem_singleton] at hxl
    have hxw : x = w := congrArg Prod.fst hxl
    subst hxw
    have hlf : (WTree.lf x).height = 0 := rfl
    rw [hlf, Nat.zero_max] at hH
    rw [hlf] at hlh
    have hr0 : r.height = 0 := by omega
    obtain ⟨y, rfl⟩ := WTree.height_eq_zero hr0
    refine ⟨y, 0, ?_⟩
    rw [dfm_nd, dfm_lf, dfm_lf] at h
    simp only [Multiset.map_singleton, Multiset.singleton_add, Nat.zero_add] at h
    have hHval : (WTree.nd (.lf x) (.lf y)).height = 1 := by
      simp [WTree.height]
    rw [hHval] at h ⊢
    have hC := (Multiset.cons_inj_right (x, 1)).mp h
    rw [← hC, Multiset.cons_zero]
  · have hxl' : (x, l.height) ∈ dfm l := hxl
    set Cl := (dfm l).erase (x, l.height) with hCldef
    have hdl : dfm l = (x, l.height) ::ₘ Cl := (Multiset.cons_erase hxl').symm
    obtain ⟨y, Cl', hCl⟩ := ihl x Cl hdl (by omega)
    rw [dfm_nd, hdl, hCl] at h
    simp only [Multiset.map_cons, Multiset.cons_add] at h
    rw [show l.height + 1 = (WTree.nd l r).height by omega] at h
    have hC := (Multiset.cons_inj_right (x, (WTree.nd l r).height)).mp h
    exact ⟨y, _, hC.symm⟩

theorem deepest_has_partner :
    ∀ (t : WTree) (x : Nat) (C : Multiset (Nat × Nat)),
      dfm t = (x, t.height) ::ₘ C → 1 ≤ t.height →
      ∃ y C', C = (y, t.height) ::ₘ C' := by
  intro t
  induction t with
  | lf w => intro x C _ hh; simp [WTree.height] at hh
  | nd l r ihl ihr =>
      intro x C h _
      have hmem : (x, (WTree.nd l r).height) ∈ dfm (.nd l r) := by
        rw [h]; exact Multiset.mem_cons_self _ _
      rw [dfm_nd] at hmem
      rcases Multiset.mem_add.mp hmem with hside | hside
      · exact dhp_core l r ihl x C h (mem_dfm_nd_left hside).2
      · have h' : dfm (.nd r l) = (x, (WTree.nd r l).height) ::ₘ C := by
          rw [← dfm_nd_comm, ← height_nd_comm]
          exact h
        have hxr : (x, (WTree.nd r l).height - 1) ∈ dfm r := by
          rw [← height_nd_comm]
          exact (mem_dfm_nd_left hside).2
        obtain ⟨y, C', hC⟩ := dhp_core r l ihr x C h' hxr
        rw [height_nd_comm r l] at hC
        exact ⟨y, C', hC⟩

theorem collapse_core (n : Nat)
    (IH : ∀ (t : WTree) (x y : Nat) (C : Multiset (Nat × Nat)),
      Multiset.card (dfm t) ≤ n →
      dfm t = (x, t.height) ::ₘ (y, t.height) ::ₘ C →
      ∃ t' : WTree, dfm t' = (x + y, t.height - 1) ::ₘ C)
    (l r : WTree) (x y : Nat) (C : Multiset (Nat × Nat))
    (hcard : Multiset.card (dfm (.nd l r)) ≤ n + 1)
    (h : dfm (.nd l r) = (x, (WTree.nd l r).height) ::ₘ (y, (WTree.nd l r).height) ::ₘ C)
    (hxl : (x, (WTree.nd l r).height - 1) ∈ dfm l) :
    ∃ t' : WTree, dfm t' = (x + y, (WTree.nd l r).height - 1) ::ₘ C := by
  have hH : (WTree.nd l r).height = max l.height r.height + 1 := rfl
  have hdep := depth_le_height l _ hxl
  have hmaxl : l.height ≤ max l.height r.height := le_max_left _ _
  have hlh : l.height = (WTree.nd l r).height - 1 := by omega
  rw [← hlh] at hxl
  obtain ⟨Cl, hdl⟩ : ∃ Cl, dfm l = (x, l.height) ::ₘ Cl :=
    ⟨_, (Multiset.cons_erase hxl).symm⟩
  rw [dfm_nd, hdl] at h
  simp only [Multiset.map_cons, Multiset.cons_add] at h
  rw [show l.height + 1 = (WTree.nd l r).height by omega] at h
  have hrem := (Multiset.cons_inj_right (x, (WTree.nd l r).height)).mp h
  have hymem : ((y, (WTree.nd l r).height) : Nat × Nat) ∈
      Cl.map (fun e : Nat × Nat => (e.1, e.2 + 1)) +
        (dfm r).map (fun e : Nat × Nat => (e.1, e.2 + 1)) := by
    rw [hrem]; exact Multiset.mem_cons_self _ _
  rcases Multiset.mem_add.mp hymem with hyside | hyside
  · obtain ⟨⟨y', dy⟩, hyC, heq⟩ := Multiset.mem_map.mp hyside
    obtain ⟨hyy, hdy⟩ : y' = y ∧ dy + 1 = (WTree.nd l r).height := by simpa using heq
    rw [hyy] at hyC
    have hdy' : dy = l.height := by omega
    subst hdy'
    obtain ⟨Cl₂, hCl⟩ : ∃ C₂, Cl = (y, l.height) ::ₘ C₂ :=
      ⟨_, (Multiset.cons_erase hyC).symm⟩
    have hdl2 : dfm l = (x, l.height) ::ₘ (y, l.height) ::ₘ Cl₂ := by rw [hdl, hCl]
    have hcard_l : Multiset.card (dfm l) ≤ n := by
      have h1 := card_dfm_pos r
      have h2 : Multiset.card (dfm (.nd l r)) =
          Multiset.card (dfm l) + Multiset.card (dfm r) := by
        rw [dfm_nd]; simp
      omega
    obtain ⟨l₄, hl₄⟩ := IH l x y Cl₂ hcard_l hdl2
    have hlpos : 1 ≤ l.height := card2_height (by
      rw [hdl2]; simp only [Multiset.card_cons]; omega)
    rw [hCl] at hrem
    simp only [Multiset.map_cons, Multiset.cons_add] at hrem
    rw [show l.height + 1 = (WTree.nd l r).height by omega] at hrem
    have hC := (Multiset.cons_inj_right ((y, (WTree.nd l r).height))).mp hrem
    refine ⟨.nd l₄ r, ?_⟩
    rw [dfm_nd, hl₄, ← hC]
    simp only [Multiset.map_cons]
    rw [Multiset.cons_add,
      show l.height - 1 + 1 = (WTree.nd l r).height - 1 by omega]
  · obtain ⟨hy1, hymem'⟩ := mem_dfm_nd_left hyside
    have hdepr := depth_le_height r _ hymem'
    have hmaxr : r.height ≤ max l.height r.height := le_max_right _ _
    have hrh : r.height = (WTree.nd l r).height - 1 := by omega
    by_cases hl0 : l.height = 0
    · obtain ⟨w, rfl⟩ := WTree.height_eq_zero hl0
      rw [dfm_lf, Multiset.mem_singleton] at hxl
      have hxw : x = w := congrArg Prod.fst hxl
      subst hxw
      have hlf : (WTree.lf x).height = 0 := rfl
      rw [hlf, Nat.zero_max] at hH
      rw [hlf] at hlh
      have hr0 : r.height = 0 := by omega
      obtain ⟨y', rfl⟩ := WTree.height_eq_zero hr0
      rw [dfm_lf, Multiset.mem_singleton] at hymem'
      have hyy : y = y' := congrArg Prod.fst hymem'
      subst hyy
      have hCl0 : Cl = 0 := by
        have hcc := congrArg Multiset.card hdl
        rw [dfm_lf] at hcc
        simp only [Multiset.card_singleton, Multiset.card_cons] at hcc
        exact Multiset.card_eq_zero.mp (by omega)
      subst hCl0
      have hC0 : C = 0 := by
        have hcc := congrArg Multiset.card hrem
        rw [dfm_lf] at hcc
        simp only [Multiset.map_zero, zero_add, Multiset.map_singleton,
          Multiset.card_singleton, Multiset.card_cons] at hcc
        exact Multiset.card_eq_zero.mp (by omega)
      subst hC0
      refine ⟨.lf (x + y), ?_⟩
      rw [dfm_lf]
      rw [show (WTree.nd (.lf x) (.lf y)).height - 1 = 0 by omega, Multiset.cons_zero]
    · obtain ⟨x2, Cl₂, hCl⟩ := deepest_has_partner l x Cl hdl (by omega)
      have hdl3 : dfm l = (x2, l.height) ::ₘ (x, l.height) ::ₘ Cl₂ := by
        rw [hdl, hCl, Multiset.cons_swap]
      obtain ⟨l₂, hl₂, hhl₂⟩ := revalue l x2 l.height y ((x, l.height) ::ₘ Cl₂) hdl3
      have hymem'' : (y, r.height) ∈ dfm r := by rw [hrh]; exact hymem'
      obtain ⟨Cr, hdr⟩ : ∃ Cr, dfm r = (y, r.height) ::ₘ Cr :=
        ⟨_, (Multiset.cons_erase hymem'').symm⟩
      obtain ⟨r₂, hr₂, hhr₂⟩ := revalue r y r.height x2 Cr hdr
      have hcard_l : Multiset.card (dfm l₂) ≤ n := by
        have h1 := card_dfm_pos r
        have h2 : Multiset.card (dfm (.nd l r)) =
            Multiset.card (dfm l) + Multiset.card (dfm r) := by
          rw [dfm_nd]; simp
        have h3 : Multiset.card (dfm l₂) = Multiset.card (dfm l) := by
          rw [hl₂, hdl3]
          simp only [Multiset.card_cons]
        omega
      have hdl₂' : dfm l₂ = (x, l₂.height) ::ₘ (y, l₂.height) ::ₘ Cl₂ := by
        rw [hl₂, hhl₂, Multiset.cons_swap]
      obtain ⟨l₃, hl₃⟩ := IH l₂ x y Cl₂ hcard_l hdl₂'
      rw [hCl, hdr] at hrem
      simp only [Multiset.map_cons] at hrem
      rw [Multiset.cons_add, Multiset.add_cons,
        show l.height + 1 = (WTree.nd l r).height by omega,
        show r.height + 1 = (WTree.nd l r).height by omega,
        Multiset.cons_swap] at hrem
      have hC := (Multiset.cons_inj_right ((y, (WTree.nd l r).height))).mp hrem
      refine ⟨.nd l₃ r₂, ?_⟩
      rw [dfm_nd, hl₃, hr₂, ← hC]
      simp only [Multiset.map_cons]
      rw [Multiset.cons_add, Multiset.add_cons,
        show l₂.height - 1 + 1 = (WTree.nd l r).height - 1 by omega,
        show r.height + 1 = (WTree.nd l r).height by omega]

theorem collapse_deepest :
    ∀ (n : Nat) (t : WTree) (x y : Nat) (C : Multiset (Nat × Nat)),
      Multiset.card (dfm t) ≤ n →
      dfm t = (x, t.height) ::ₘ (y, t.height) ::ₘ C →
      ∃ t' : WTree, dfm t' = (x + y, t.height - 1) ::ₘ C := by
  intro n
  induction n with
  | zero =>
      intro t x y C hcard _
      have h1 := card_dfm_pos t
      omega
  | succ n ih =>
      intro t x y C hcard heq
      cases t with
      | lf w =>
          have hcc := congrArg Multiset.card heq
          rw [dfm_lf] at hcc
          simp only [Multiset.card_singleton, Multiset.card_cons] at hcc
          omega
      | nd l r =>
          have hmem : ((x, (WTree.nd l r).height) : Nat × Nat) ∈ dfm (.nd l r) := by
            rw [heq]; exact Multiset.mem_cons_self _ _
          rw [dfm_nd] at hmem
          rcases Multiset.mem_add.mp hmem with hside | hside
          · exact collapse_core n ih l r x y C hcard heq (mem_dfm_nd_left hside).2
          · have hcard' : Multiset.card (dfm (.nd r l)) ≤ n + 1 := by
              rw [← dfm_nd_comm]; exact hcard
            have heq' : dfm (.nd r l) =
                (x, (WTree.nd r l).height) ::ₘ (y, (WTree.nd r l).height) ::ₘ C := by
              rw [← dfm_nd_comm, ← height_nd_comm]; exact heq
            have hxr : (x, (WTree.nd r l).height - 1) ∈ dfm r := by
              rw [← height_nd_comm]; exact (mem_dfm_nd_left hside).2
            obtain ⟨t', ht'⟩ := collapse_core n ih r l x y C hcard' heq' hxr
            rw [height_nd_comm r l] at ht'
            exact ⟨t', ht'⟩

theorem mul_exchange {a b c d : Nat} (hab : a ≤ b) (hcd : c ≤ d) :
    a * d + b * c ≤ a * c + b * d := by
  obtain ⟨e, rfl⟩ := Nat.exists_eq_add_of_le hab
  obtain ⟨f, rfl⟩ := Nat.exists_eq_add_of_le hcd
  have h1 : a * (c + f) + (a + e) * c = (a * c + (a + e) * c) + a * f := by ring
  have h2 : a * c + (a + e) * (c + f) = ((a * c + (a + e) * c) + a * f) + e * f := by
    ring
  rw [h1, h2]
  exact Nat.le_add_right _ _

theorem msum_cons (w d : Nat) (M : Multiset (Nat × Nat)) :
    msum ((w, d) ::ₘ M) = w * d + msum M := by
  simp [msum]

theorem cost_msum (t : WTree) : t.cost = msum (dfm t) := cost_eq_msum t

theorem swap_cost_le (t : WTree) (a da b db : Nat) (E : Multiset (Nat × Nat))
    (h : dfm t = (a, da) ::ₘ (b, db) ::ₘ E)
    (hw : b ≤ a) (hd : db ≤ da) :
    ∃ t' : WTree, dfm t' = (a, db) ::ₘ (b, da) ::ₘ E ∧ t'.height = t.height ∧
      t'.cost ≤ t.cost := by
  obtain ⟨t', h', hh⟩ := swap_leaves t a da b db E h
  refine ⟨t', h', hh, ?_⟩
  rw [cost_msum t', cost_msum t, h, h', msum_cons, msum_cons, msum_cons, msum_cons]
  have hx := mul_exchange hw hd
  linarith

theorem KL (U : WTree) (w1 w2 : Nat) (W₀ : Multiset Nat)
    (hw : (dfm U).map Prod.fst = w1 ::ₘ w2 ::ₘ W₀)
    (h1 : ∀ w ∈ w2 ::ₘ W₀, w1 ≤ w)
    (h2 : ∀ w ∈ W₀, w2 ≤ w) :
    ∃ U' : WTree, (dfm U').map Prod.fst = (w1 + w2) ::ₘ W₀ ∧
      U'.cost + w1 + w2 ≤ U.cost := by
  have hcard2 : 2 ≤ Multiset.card (dfm U) := by
    have hcc := congrArg Multiset.card hw
    simp only [Multiset.card_map, Multiset.card_cons] at hcc
    omega
  have hht : 1 ≤ U.height := card2_height hcard2
  obtain ⟨a, C₁, hU1⟩ := exists_deepest U
  obtain ⟨b, C₂, hC1⟩ := deepest_has_partner U a C₁ hU1 hht
  rw [hC1] at hU1
  have hwf : a ::ₘ b ::ₘ C₂.map Prod.fst = w1 ::ₘ w2 ::ₘ W₀ := by
    rw [← hw, hU1]; simp only [Multiset.map_cons]
  have hw1mem : w1 ∈ a ::ₘ b ::ₘ C₂.map Prod.fst := by
    rw [hwf]; exact Multiset.mem_cons_self _ _
  have step1 : ∃ (U₂ : WTree) (M₂ : Multiset (Nat × Nat)),
      dfm U₂ = (w1, U.height) ::ₘ M₂ ∧ M₂.map Prod.fst = w2 ::ₘ W₀ ∧
      U₂.height = U.height ∧ U₂.cost ≤ U.cost := by
    rcases Multiset.mem_cons.mp hw1mem with h1a | hrest
    · subst h1a
      refine ⟨U, (b, U.height) ::ₘ C₂, hU1, ?_, rfl, le_refl _⟩
      have hcancel := (Multiset.cons_inj_right w1).mp hwf
      simpa using hcancel
    · rcases Multiset.mem_cons.mp hrest with h1b | hC
      · subst h1b
        refine ⟨U, (a, U.height) ::ₘ C₂, ?_, ?_, rfl, le_refl _⟩
        · rw [hU1, Multiset.cons_swap]
        · have hswap : w1 ::ₘ a ::ₘ C₂.map Prod.fst = w1 ::ₘ w2 ::ₘ W₀ := by
            rw [Multiset.cons_swap]; exact hwf
          have hcancel := (Multiset.cons_inj_right w1).mp hswap
          simpa using hcancel
      · obtain ⟨⟨u, d1⟩, hu, hueq⟩ := Multiset.mem_map.mp hC
        obtain rfl : w1 = u := hueq.symm
        obtain ⟨C₄, hC4⟩ : ∃ C₄, C₂ = (w1, d1) ::ₘ C₄ :=
          ⟨_, (Multiset.cons_erase hu).symm⟩
        have hd1 : d1 ≤ U.height := by
          have hmem : ((w1, d1) : Nat × Nat) ∈ dfm U := by
            rw [hU1, hC4]
            exact Multiset.mem_cons_of_mem
              (Multiset.mem_cons_of_mem (Multiset.mem_cons_self _ _))
          exact depth_le_height U _ hmem
        have hwf2 : w1 ::ₘ a ::ₘ b ::ₘ C₄.map Prod.fst = w1 ::ₘ w2 ::ₘ W₀ := by
          rw [← hwf, hC4]
          simp only [Multiset.map_cons]
          rw [Multiset.cons_swap w1 a, Multiset.cons_swap w1 b]
        have hwf3 := (Multiset.cons_inj_right w1).mp hwf2
        have hw1a : w1 ≤ a :=
          h1 a (by rw [← hwf3]; exact Multiset.mem_cons_self _ _)
        have hU2 : dfm U = (a, U.height) ::ₘ (w1, d1) ::ₘ (b, U.height) ::ₘ C₄ := by
          rw [hU1, hC4, Multiset.cons_swap (b, U.height) (w1, d1)]
        obtain ⟨U₂, hU₂, hh₂, hc₂⟩ :=
          swap_cost_le U a U.height w1 d1 ((b, U.height) ::ₘ C₄) hU2 hw1a hd1
        refine ⟨U₂, (b, U.height) ::ₘ (a, d1) ::ₘ C₄, ?_, ?_, hh₂, hc₂⟩
        · rw [hU₂, Multiset.cons_swap (a, d1) (w1, U.height)]
          rw [Multiset.cons_swap (a, d1) (b, U.height)]
        · simp only [Multiset.map_cons]
          rw [← hwf3, Multiset.cons_swap]
  obtain ⟨U₂, M₂, hU₂, hM₂, hh₂, hc₂⟩ := step1
  have hU₂' : dfm U₂ = (w1, U₂.height) ::ₘ M₂ := by rw [hh₂]; exact hU₂
  have hht₂ : 1 ≤ U₂.height := by rw [hh₂]; exact hht
  obtain ⟨b₂, C₃, hC₃⟩ := deepest_has_partner U₂ w1 M₂ hU₂' hht₂
  rw [hh₂] at hC₃
  have hwb : b₂ ::ₘ C₃.map Prod.fst = w2 ::ₘ W₀ := by
    rw [← hM₂, hC₃]; simp only [Multiset.map_cons]
  have hw2mem : w2 ∈ b₂ ::ₘ C₃.map Prod.fst := by
    rw [hwb]; exact Multiset.mem_cons_self _ _
  have step2 : ∃ (U₃ : WTree) (C₅ : Multiset (Nat × Nat)),
      dfm U₃ = (w1, U.height) ::ₘ (w2, U.height) ::ₘ C₅ ∧ C₅.map Prod.fst = W₀ ∧
      U₃.height = U.height ∧ U₃.cost ≤ U₂.cost := by
    rcases Multiset.mem_cons.mp hw2mem with h2b | hC
    · subst h2b
      refine ⟨U₂, C₃, ?_, ?_, hh₂, le_refl _⟩
      · rw [hU₂, hC₃]
      · exact (Multiset.cons_inj_right w2).mp hwb
    · obtain ⟨⟨u, d2⟩, hu, hueq⟩ := Multiset.mem_map.mp hC
      obtain rfl : w2 = u := hueq.symm
      obtain ⟨C₆, hC6⟩ : ∃ C₆, C₃ = (w2, d2) ::ₘ C₆ :=
        ⟨_, (Multiset.cons_erase hu).symm⟩
      have hd2 : d2 ≤ U.height := by
        have hmem : ((w2, d2) : Nat × Nat) ∈ dfm U₂ := by
          rw [hU₂, hC₃, hC6]
          exact Multiset.mem_cons_of_mem
            (Multiset.mem_cons_of_mem (Multiset.mem_cons_self _ _))
        have hdlee := depth_le_height U₂ _ hmem
        rw [hh₂] at hdlee
        exact hdlee
      have hwb2 : w2 ::ₘ b₂ ::ₘ C₆.map Prod.fst = w2 ::ₘ W₀ := by
        rw [← hwb, hC6]
        simp only [Multiset.map_cons]
        rw [Multiset.cons_swap w2 b₂]
      have hW0 := (Multiset.cons_inj_right w2).mp hwb2
      have hw2b : w2 ≤ b₂ :=
        h2 b₂ (by rw [← hW0]; exact Multiset.mem_cons_self _ _)
      have hU₂r : dfm U₂ = (b₂, U.height) ::ₘ (w2, d2) ::ₘ (w1, U.height) ::ₘ C₆ := by
        rw [hU₂, hC₃, hC6, Multiset.cons_swap (w1, U.height) (b₂, U.height)]
        rw [Multiset.cons_swap (w1, U.height) (w2, d2)]
      obtain ⟨U₃, hU₃, hh₃, hc₃⟩ :=
        swap_cost_le U₂ b₂ U.height w2 d2 ((w1, U.height) ::ₘ C₆) hU₂r hw2b hd2
      refine ⟨U₃, (b₂, d2) ::ₘ C₆, ?_, ?_, by rw [hh₃, hh₂], hc₃⟩
      · rw [hU₃, Multiset.cons_swap (b₂, d2) (w2, U.height)]
        rw [Multiset.cons_swap (b₂, d2) (w1, U.height)]
        rw [Multiset.cons_swap (w2, U.height) (w1, U.height)]
      · simp only [Multiset.map_cons]
        exact hW0
  obtain ⟨U₃, C₅, hU₃, hC₅, hh₃, hc₃⟩ := step2
  have hU₃' : dfm U₃ = (w1, U₃.height) ::ₘ (w2, U₃.height) ::ₘ C₅ := by
    rw [hh₃]; exact hU₃
  obtain ⟨U', hU'⟩ := collapse_deepest (Multiset.card (dfm U₃)) U₃ w1 w2 C₅
    (le_refl _) hU₃'
  refine ⟨U', ?_, ?_⟩
  · rw [hU']
    simp only [Multiset.map_cons]
    rw [hC₅]
  · have hcu3 : U₃.cost = w1 * U.height + (w2 * U.height + msum C₅) := by
      rw [cost_msum, hU₃, msum_cons, msum_cons]
    have hcu' : U'.cost = (w1 + w2) * (U₃.height - 1) + msum C₅ := by
      rw [cost_msum, hU', msum_cons]
    rw [hh₃] at hcu'
    obtain ⟨E, hE⟩ : ∃ E, U.height = E + 1 := ⟨U.height - 1, by omega⟩
    rw [hE, Nat.add_sub_cancel] at hcu'
    rw [hE] at hcu3
    have hfinal : U'.cost + w1 + w2 = U₃.cost := by
      rw [hcu', hcu3]; ring
    rw [hfinal]
    exact le_trans hc₃ hc₂

theorem getN_set_self (heap : List Node) (i : Nat) (a : Node) (h : i < heap.length) :
    getN (heap.set i a) i = a := getD_set_self heap i a Node.nil h

theorem getN_set_ne (heap : List Node) (i j : Nat) (a : Node) (h : i ≠ j) :
    getN (heap.set i a) j = getN heap j := getD_set_ne heap i j a Node.nil h

theorem getN_append_lt : ∀ (l : List Node) (x : Node) (i : Nat), i < l.length →
    getN (l ++ [x]) i = getN l i := by
  intro l
  induction l with
  | nil => intro x i h; simp at h
  | cons a t ih =>
      intro x i h
      cases i with
      | zero => rfl
      | succ n => exact ih x n (by simpa using h)

theorem getN_cons_pos (a b : Node) (t : List Node) (i : Nat) (h : 0 < i) :
    getN (a :: t) i = getN (b :: t) i := by
  cases i with
  | zero => omega
  | succ n => rfl

theorem getN_eq_get : ∀ (l : List Node) (i : Nat) (h : i < l.length),
    getN l i = l.get ⟨i, h⟩ := by
  intro l
  induction l with
  | nil => intro i h; simp at h
  | cons a t ih =>
      intro i h
      cases i with
      | zero => rfl
      | succ n => exact ih n (by simpa using h)

theorem setHeapOrd (heap : List Node) (pos : Nat) (newitem : Node)
    (hlen : pos < heap.length)
    (ha : ∀ c, 0 < c → c < heap.length → c ≠ pos → (c - 1) / 2 ≠ pos →
      (getN heap ((c - 1) / 2)).freq ≤ (getN heap c).freq)
    (hb : ∀ c, 0 < c → c < heap.length → (c - 1) / 2 = pos →
      newitem.freq ≤ (getN heap c).freq)
    (hpar : 0 < pos → (getN heap ((pos - 1) / 2)).freq ≤ newitem.freq) :
    heapOrd (heap.set pos newitem) := by
  intro i hi hilen
  rw [List.length_set] at hilen
  by_cases hip : i = pos
  · subst hip
    rw [getN_set_ne heap i ((i - 1) / 2) newitem (by omega),
      getN_set_self heap i newitem hlen]
    exact hpar hi
  · by_cases hparc : (i - 1) / 2 = pos
    · rw [hparc, getN_set_self heap pos newitem hlen,
        getN_set_ne heap pos i newitem (fun h => hip h.symm)]
      exact hb i hi hilen hparc
    · rw [getN_set_ne heap pos ((i - 1) / 2) newitem (fun h => hparc h.symm),
        getN_set_ne heap pos i newitem (fun h => hip h.symm)]
      exact ha i hi hilen hip hparc

theorem siftdownLoop_heapOrd :
    ∀ (fuel : Nat) (heap : List Node) (pos : Nat) (newitem : Node),
      pos ≤ fuel → pos < heap.length →
      (∀ c, 0 < c → c < heap.length → c ≠ pos → (c - 1) / 2 ≠ pos →
        (getN heap ((c - 1) / 2)).freq ≤ (getN heap c).freq) →
      (∀ c, 0 < c → c < heap.length → (c - 1) / 2 = pos →
        newitem.freq ≤ (getN heap c).freq) →
      (∀ c, 0 < c → c < heap.length → (c - 1) / 2 = pos → 0 < pos →
        (getN heap ((pos - 1) / 2)).freq ≤ (getN heap c).freq) →
      heapOrd (siftdownLoop fuel heap 0 pos newitem) := by
  intro fuel
  induction fuel with
  | zero =>
      intro heap pos newitem hfuel hlen ha hb _
      have hpos0 : pos = 0 := by omega
      subst hpos0
      exact setHeapOrd heap 0 newitem hlen ha hb (fun h => absurd h (by omega))
  | succ fuel ih =>
      intro heap pos newitem hfuel hlen ha hb hd
      have hunfold : siftdownLoop (fuel + 1) heap 0 pos newitem =
          if 0 < pos then
            (if newitem.freq < (getN heap ((pos - 1) / 2)).freq then
              siftdownLoop fuel (heap.set pos (getN heap ((pos - 1) / 2))) 0
                ((pos - 1) / 2) newitem
            else heap.set pos newitem)
          else heap.set pos newitem := rfl
      rw [hunfold]
      by_cases hp0 : 0 < pos
      · rw [if_pos hp0]
        by_cases h2 : newitem.freq < (getN heap ((pos - 1) / 2)).freq
        · rw [if_pos h2]
          refine ih (heap.set pos (getN heap ((pos - 1) / 2))) ((pos - 1) / 2) newitem
            (by omega) (by rw [List.length_set]; omega) ?_ ?_ ?_
          · intro c hc hclen hcne hcpne
            rw [List.length_set] at hclen
            by_cases hcp : c = pos
            · exact absurd (by rw [hcp]) hcpne
            · by_cases hcpp : (c - 1) / 2 = pos
              · rw [hcpp, getN_set_self heap pos _ hlen,
                  getN_set_ne heap pos c _ (fun h => hcp h.symm)]
                exact hd c hc hclen hcpp hp0
              · rw [getN_set_ne heap pos ((c - 1) / 2) _ (fun h => hcpp h.symm),
                  getN_set_ne heap pos c _ (fun h => hcp h.symm)]
                exact ha c hc hclen hcp hcpp
          · intro c hc hclen hcpp
            rw [List.length_set] at hclen
            by_cases hcp : c = pos
            · rw [hcp, getN_set_self heap pos _ hlen]
              exact Nat.le_of_lt h2
            · rw [getN_set_ne heap pos c _ (fun h => hcp h.symm)]
              have hedge := ha c hc hclen hcp (by omega)
              rw [hcpp] at hedge
              exact le_trans (Nat.le_of_lt h2) hedge
          · intro c hc hclen hcpp hpp0
            rw [List.length_set] at hclen
            rw [getN_set_ne heap pos (((pos - 1) / 2 - 1) / 2) _ (by omega)]
            have hga := ha ((pos - 1) / 2) hpp0 (by omega) (by omega) (by omega)
            by_cases hcp : c = pos
            · rw [hcp, getN_set_self heap pos _ hlen]
              exact hga
            · rw [getN_set_ne heap pos c _ (fun h => hcp h.symm)]
              have hedge := ha c hc hclen hcp (by omega)
              rw [hcpp] at hedge
              exact le_trans hga hedge
        · rw [if_neg h2]
          exact setHeapOrd heap pos newitem hlen ha hb (fun _ => Nat.le_of_not_lt h2)
      · rw [if_neg hp0]
        exact setHeapOrd heap pos newitem hlen ha hb (fun h => absurd h hp0)

theorem heappush_heapOrd (heap : List Node) (item : Node) (h : heapOrd heap) :
    heapOrd (heappush heap item) := by
  show heapOrd (siftdownLoop heap.length (heap ++ [item]) 0 heap.length
    (getN (heap ++ [item]) heap.length))
  rw [getN_append_singleton]
  refine siftdownLoop_heapOrd heap.length (heap ++ [item]) heap.length item le_rfl
    (by simp) ?_ ?_ ?_
  · intro c hc hclen hcne _
    rw [List.length_append, List.length_singleton] at hclen
    rw [getN_append_lt heap item ((c - 1) / 2) (by omega),
      getN_append_lt heap item c (by omega)]
    exact h c hc (by omega)
  · intro c hc hclen hcpp
    rw [List.length_append, List.length_singleton] at hclen
    exact absurd hcpp (by omega)
  · intro c hc hclen hcpp _
    rw [List.length_append, List.length_singleton] at hclen
    exact absurd hcpp (by omega)

theorem heapOrd_root_min (heap : List Node) (hord : heapOrd heap) :
    ∀ i, i < heap.length → (getN heap 0).freq ≤ (getN heap i).freq := by
  intro i
  induction i using Nat.strong_induction_on with
  | _ i ih =>
      intro hlen
      rcases Nat.eq_zero_or_pos i with rfl | hpos
      · exact le_rfl
      · have hparent := hord i hpos hlen
        have hp := ih ((i - 1) / 2) (by omega) (by omega)
        exact le_trans hp hparent

theorem siftupLoop_heapOrd :
    ∀ (fuel : Nat) (heap : List Node) (pos : Nat) (newitem : Node),
      heap.length - pos ≤ fuel → pos < heap.length →
      (∀ c, 0 < c → c < heap.length → c ≠ pos → (c - 1) / 2 ≠ pos →
        (getN heap ((c - 1) / 2)).freq ≤ (getN heap c).freq) →
      (∀ c, 0 < c → c < heap.length → (c - 1) / 2 = pos → 0 < pos →
        (getN heap ((pos - 1) / 2)).freq ≤ (getN heap c).freq) →
      heapOrd (siftupLoop fuel heap heap.length 0 pos newitem) := by
  intro fuel
  induction fuel with
  | zero =>
      intro heap pos newitem hfuel hpos _ _
      exact absurd hpos (by omega)
  | succ fuel ih =>
      intro heap pos newitem hfuel hpos hA hB
      have hunfold : siftupLoop (fuel + 1) heap heap.length 0 pos newitem =
          if 2 * pos + 1 < heap.length then
            siftupLoop fuel
              (heap.set pos (getN heap (if 2 * pos + 1 + 1 < heap.length ∧
                  ¬ (getN heap (2 * pos + 1)).freq < (getN heap (2 * pos + 1 + 1)).freq
                then 2 * pos + 1 + 1 else 2 * pos + 1)))
              heap.length 0
              (if 2 * pos + 1 + 1 < heap.length ∧
                  ¬ (getN heap (2 * pos + 1)).freq < (getN heap (2 * pos + 1 + 1)).freq
                then 2 * pos + 1 + 1 else 2 * pos + 1) newitem
          else siftdown (heap.set pos newitem) 0 pos := rfl
      rw [hunfold]
      by_cases hc : 2 * pos + 1 < heap.length
      · rw [if_pos hc]
        set q := if 2 * pos + 1 + 1 < heap.length ∧
            ¬ (getN heap (2 * pos + 1)).freq < (getN heap (2 * pos + 1 + 1)).freq
          then 2 * pos + 1 + 1 else 2 * pos + 1 with hqdef
        have hqlt : q < heap.length := by
          rw [hqdef]; split
          · omega
          · exact hc
        have hqgt : pos < q := by rw [hqdef]; split <;> omega
        have hqchild : (q - 1) / 2 = pos := by rw [hqdef]; split <;> omega
        have hqle : ∀ c, 0 < c → c < heap.length → (c - 1) / 2 = pos →
            (getN heap q).freq ≤ (getN heap c).freq := by
          intro c hc0 hclen hcpp
          have hcval : c = 2 * pos + 1 ∨ c = 2 * pos + 1 + 1 := by omega
          rw [hqdef]
          split
          · next hcond =>
              rcases hcval with rfl | rfl
              · exact Nat.le_of_not_lt hcond.2
              · exact le_rfl
          · next hcond =>
              rcases hcval with rfl | rfl
              · exact le_rfl
              · have hlr : (getN heap (2 * pos + 1)).freq <
                    (getN heap (2 * pos + 1 + 1)).freq := by
                  by_contra hnot
                  exact hcond ⟨hclen, hnot⟩
                exact Nat.le_of_lt hlr
        rw [show heap.length = (heap.set pos (getN heap q)).length from
          (List.length_set heap pos _).symm]
        refine ih (heap.set pos (getN heap q)) q newitem ?_ ?_ ?_ ?_
        · rw [List.length_set]; omega
        · rw [List.length_set]; exact hqlt
        · intro c hc0 hclen hcne hcpne
          rw [List.length_set] at hclen
          by_cases hcp : c = pos
          · have hp0 : 0 < pos := hcp ▸ hc0
            rw [hcp, getN_set_self heap pos _ hpos,
              getN_set_ne heap pos ((pos - 1) / 2) _ (by omega)]
            exact hB q (by omega) hqlt hqchild hp0
          · by_cases hcpp : (c - 1) / 2 = pos
            · rw [hcpp, getN_set_self heap pos _ hpos,
                getN_set_ne heap pos c _ (fun h => hcp h.symm)]
              exact hqle c hc0 hclen hcpp
            · rw [getN_set_ne heap pos ((c - 1) / 2) _ (fun h => hcpp h.symm),
                getN_set_ne heap pos c _ (fun h => hcp h.symm)]
              exact hA c hc0 hclen hcp hcpp
        · intro c hc0 hclen hcpp hq0
          rw [List.length_set] at hclen
          rw [hqchild, getN_set_self heap pos _ hpos,
            getN_set_ne heap pos c _ (by omega)]
          have hedge := hA c hc0 hclen (by omega) (by omega)
          rw [hcpp] at hedge
          exact hedge
      · rw [if_neg hc]
        show heapOrd (siftdownLoop pos (heap.set pos newitem) 0 pos
          (getN (heap.set pos newitem) pos))
        rw [getN_set_self heap pos newitem hpos]
        refine siftdownLoop_heapOrd pos (heap.set pos newitem) pos newitem le_rfl
          (by rw [List.length_set]; exact hpos) ?_ ?_ ?_
        · intro c hc0 hclen hcne hcpne
          rw [List.length_set] at hclen
          rw [getN_set_ne heap pos ((c - 1) / 2) _ (fun h => hcpne h.symm),
            getN_set_ne heap pos c _ (fun h => hcne h.symm)]
          exact hA c hc0 hclen hcne hcpne
        · intro c hc0 hclen hcpp
          exact absurd hcpp (by rw [List.length_set] at hclen; omega)
        · intro c hc0 hclen hcpp _
          exact absurd hcpp (by rw [List.length_set] at hclen; omega)

theorem siftup0_heapOrd (heap : List Node) (h0 : 0 < heap.length)
    (hA : ∀ c, 0 < c → c < heap.length → (c - 1) / 2 ≠ 0 →
      (getN heap ((c - 1) / 2)).freq ≤ (getN heap c).freq) :
    heapOrd (siftup heap 0) := by
  show heapOrd (siftupLoop heap.length heap heap.length 0 0 (getN heap 0))
  refine siftupLoop_heapOrd heap.length heap 0 (getN heap 0) (by omega) h0 ?_ ?_
  · intro c hc0 hclen _ hcpne
    exact hA c hc0 hclen hcpne
  · intro c _ _ _ hp0
    exact absurd hp0 (by omega)

theorem heappop_root (heap : List Node) (x : Node) (h' : List Node)
    (h : heappop heap = some (x, h')) : x = getN heap 0 := by
  unfold heappop at h
  cases hg : heap.getLast? with
  | none => rw [hg] at h; simp at h
  | some lastelt =>
      rw [hg] at h
      have hdecomp : heap.dropLast ++ [lastelt] = heap :=
        List.dropLast_append_getLast? lastelt (Option.mem_def.mpr hg)
      cases hd : heap.dropLast with
      | nil =>
          rw [hd] at h
          simp at h
          obtain ⟨rfl, rfl⟩ := h
          rw [hd] at hdecomp
          rw [← hdecomp]
          rfl
      | cons r0 rt =>
          rw [hd] at h
          simp at h
          obtain ⟨rfl, rfl⟩ := h
          rw [hd] at hdecomp
          rw [← hdecomp]
          rfl

theorem heappop_min (heap : List Node) (x : Node) (h' : List Node)
    (hord : heapOrd heap) (h : heappop heap = some (x, h')) :
    ∀ n ∈ heap, x.freq ≤ n.freq := by
  intro n hn
  obtain ⟨⟨i, hi⟩, hget⟩ := List.mem_iff_get.mp hn
  have hroot := heapOrd_root_min heap hord i hi
  rw [getN_eq_get heap i hi, hget] at hroot
  rw [heappop_root heap x h' h]
  exact hroot

theorem heappop_heapOrd (heap : List Node) (x : Node) (h' : List Node)
    (hord : heapOrd heap) (h : heappop heap = some (x, h')) : heapOrd h' := by
  unfold heappop at h
  cases hg : heap.getLast? with
  | none => rw [hg] at h; simp at h
  | some lastelt =>
      rw [hg] at h
      have hdecomp : heap.dropLast ++ [lastelt] = heap :=
        List.dropLast_append_getLast? lastelt (Option.mem_def.mpr hg)
      cases hd : heap.dropLast with
      | nil =>
          rw [hd] at h
          simp at h
          obtain ⟨rfl, rfl⟩ := h
          intro i hi hilen
          simp at hilen
      | cons r0 rt =>
          rw [hd] at h
          simp at h
          obtain ⟨rfl, rfl⟩ := h
          rw [hd] at hdecomp
          have hhl : heap.length = rt.length + 2 := by rw [← hdecomp]; simp
          show heapOrd (siftup (lastelt :: rt) 0)
          refine siftup0_heapOrd (lastelt :: rt) (by simp) ?_
          intro c hc hclen hcp
          have hclen' : c < rt.length + 1 := by simpa using hclen
          have h1 : getN (lastelt :: rt) c = getN heap c := by
            rw [getN_cons_pos lastelt r0 rt c hc,
              ← getN_append_lt (r0 :: rt) lastelt c (by simp; omega), hdecomp]
          have h2 : getN (lastelt :: rt) ((c - 1) / 2) = getN heap ((c - 1) / 2) := by
            rw [getN_cons_pos lastelt r0 rt _ (by omega),
              ← getN_append_lt (r0 :: rt) lastelt _ (by simp; omega), hdecomp]
          rw [h1, h2]
          exact hord c hc (by omega)

theorem build_heap_heapOrd (fd : List (Nat × Nat)) : heapOrd (build_heap fd) := by
  show heapOrd (fd.foldl (fun h kv => heappush h (Node.mk (some kv.1) kv.2 .nil .nil)) [])
  have hgen : ∀ (l : List (Nat × Nat)) (acc : List Node), heapOrd acc →
      heapOrd (l.foldl (fun h kv => heappush h (Node.mk (some kv.1) kv.2 .nil .nil)) acc) := by
    intro l
    induction l with
    | nil => intro acc h; exact h
    | cons kv rest ih =>
        intro acc h
        exact ih (heappush acc (Node.mk (some kv.1) kv.2 .nil .nil))
          (heappush_heapOrd acc _ h)
  exact hgen fd [] (fun i hi hlen => by simp at hlen)

theorem freqs_perm {l1 l2 : List Node} (p : List.Perm l1 l2) :
    ((l1.map Node.freq : List Nat) : Multiset Nat) =
      ((l2.map Node.freq : List Nat) : Multiset Nat) :=
  Multiset.coe_eq_coe.mpr (p.map Node.freq)

theorem tcost_sum_perm {l1 l2 : List Node} (p : List.Perm l1 l2) :
    (l1.map tcost).sum = (l2.map tcost).sum := (p.map tcost).sum_eq

theorem buildTreeLoop_cost :
    ∀ (fuel : Nat) (heap : List Node),
      1 ≤ heap.length → heap.length ≤ fuel + 1 → heapOrd heap →
      (∀ n ∈ heap, n ≠ Node.nil) →
      ∀ U : WTree,
        (dfm U).map Prod.fst = ((heap.map Node.freq : List Nat) : Multiset Nat) →
      ∃ root, buildTreeLoop fuel heap = [root] ∧
        tcost root ≤ (heap.map tcost).sum + U.cost := by
  intro fuel
  induction fuel with
  | zero =>
      intro heap h1 h2 _ _ U _
      obtain ⟨root, rfl⟩ := List.length_eq_one.mp (show heap.length = 1 by omega)
      refine ⟨root, rfl, ?_⟩
      simp only [List.map_cons, List.map_nil, List.sum_cons, List.sum_nil]
      omega
  | succ fuel ih =>
      intro heap h1 h2 hord hnn U hU
      by_cases hlen : heap.length > 1
      · obtain ⟨⟨n1, h1'⟩, hpop1⟩ : ∃ p, heappop heap = some p := by
          cases hp : heappop heap with
          | none =>
              rw [heappop_none_iff] at hp
              subst hp
              simp at hlen
          | some p => exact ⟨p, rfl⟩
        have hperm1 := heappop_perm heap n1 h1' hpop1
        have hlen1 : h1'.length + 1 = heap.length := by
          have := hperm1.length_eq
          simpa using this
        have hord1 := heappop_heapOrd heap n1 h1' hord hpop1
        have hpopmin1 := heappop_min heap n1 h1' hord hpop1
        obtain ⟨⟨n2, h2'⟩, hpop2⟩ : ∃ p, heappop h1' = some p := by
          cases hp : heappop h1' with
          | none =>
              rw [heappop_none_iff] at hp
              subst hp
              simp at hlen1
              omega
          | some p => exact ⟨p, rfl⟩
        have hperm2 := heappop_perm h1' n2 h2' hpop2
        have hlen2 : h2'.length + 1 = h1'.length := by
          have := hperm2.length_eq
          simpa using this
        have hord2 := heappop_heapOrd h1' n2 h2' hord1 hpop2
        have hpopmin2 := heappop_min h1' n2 h2' hord1 hpop2
        have hstep : buildTreeLoop (fuel + 1) heap =
            buildTreeLoop fuel
              (heappush h2' (Node.mk none (n1.freq + n2.freq) n1 n2)) := by
          show (if heap.length > 1 then
              match heappop heap with
              | none => heap
              | some (node_1, h1) =>
                  match heappop h1 with
                  | none => h1
                  | some (node_2, h2) =>
                      buildTreeLoop fuel
                        (heappush h2 (Node.mk none (node_1.freq + node_2.freq) node_1 node_2))
            else heap) = _
          rw [if_pos hlen, hpop1]
          show (match heappop h1' with
            | none => h1'
            | some (node_2, h2) =>
                buildTreeLoop fuel
                  (heappush h2 (Node.mk none (n1.freq + node_2.freq) n1 node_2))) = _
          rw [hpop2]
        have hnn1 : n1 ≠ Node.nil := hnn n1 (hperm1.subset (List.mem_cons_self n1 h1'))
        have hnn2 : n2 ≠ Node.nil := hnn n2 (hperm1.subset (List.mem_cons_of_mem n1
          (hperm2.subset (List.mem_cons_self n2 h2'))))
        have hmemh2 : ∀ n ∈ h2', n ∈ heap := by
          intro n hn
          exact hperm1.subset (List.mem_cons_of_mem n1
            (hperm2.subset (List.mem_cons_of_mem n2 hn)))
        have e1 : ((heap.map Node.freq : List Nat) : Multiset Nat) =
            (((n1 :: h1').map Node.freq : List Nat) : Multiset Nat) :=
          (freqs_perm hperm1).symm
        have e2 : ((h1'.map Node.freq : List Nat) : Multiset Nat) =
            (((n2 :: h2').map Node.freq : List Nat) : Multiset Nat) :=
          (freqs_perm hperm2).symm
        have hfr1 : ((heap.map Node.freq : List Nat) : Multiset Nat) =
            n1.freq ::ₘ n2.freq ::ₘ ((h2'.map Node.freq : List Nat) : Multiset Nat) := by
          rw [e1]
          simp only [List.map_cons]
          rw [← Multiset.cons_coe, e2]
          simp only [List.map_cons]
          rw [← Multiset.cons_coe]
        have hU' : (dfm U).map Prod.fst =
            n1.freq ::ₘ n2.freq ::ₘ ((h2'.map Node.freq : List Nat) : Multiset Nat) := by
          rw [hU, hfr1]
        have hmin1 : ∀ w ∈ n2.freq ::ₘ ((h2'.map Node.freq : List Nat) : Multiset Nat),
            n1.freq ≤ w := by
          intro w hw
          rcases Multiset.mem_cons.mp hw with rfl | hw'
          · exact hpopmin1 n2 (hperm1.subset (List.mem_cons_of_mem n1
              (hperm2.subset (List.mem_cons_self n2 h2'))))
          · rw [Multiset.mem_coe] at hw'
            obtain ⟨n, hn, rfl⟩ := List.mem_map.mp hw'
            exact hpopmin1 n (hmemh2 n hn)
        have hmin2 : ∀ w ∈ ((h2'.map Node.freq : List Nat) : Multiset Nat),
            n2.freq ≤ w := by
          intro w hw
          rw [Multiset.mem_coe] at hw
          obtain ⟨n, hn, rfl⟩ := List.mem_map.mp hw
          exact hpopmin2 n (hperm2.subset (List.mem_cons_of_mem n2 hn))
        obtain ⟨U', hU'w, hU'c⟩ := KL U n1.freq n2.freq
          ((h2'.map Node.freq : List Nat) : Multiset Nat) hU' hmin1 hmin2
        have hpushperm := heappush_perm h2' (Node.mk none (n1.freq + n2.freq) n1 n2)
        have hord3 := heappush_heapOrd h2' (Node.mk none (n1.freq + n2.freq) n1 n2) hord2
        have hnn3 : ∀ n ∈ heappush h2' (Node.mk none (n1.freq + n2.freq) n1 n2),
            n ≠ Node.nil := by
          intro n hn
          rcases List.mem_cons.mp (hpushperm.subset hn) with rfl | hmem
          · intro hcon
            exact Node.noConfusion hcon
          · exact hnn n (hmemh2 n hmem)
        have hlenpush : (heappush h2' (Node.mk none (n1.freq + n2.freq) n1 n2)).length
            = h2'.length + 1 := by
          have := hpushperm.length_eq
          simpa using this
        have hfr3 : (((heappush h2' (Node.mk none (n1.freq + n2.freq) n1 n2)).map
              Node.freq : List Nat) : Multiset Nat) =
            (n1.freq + n2.freq) ::ₘ ((h2'.map Node.freq : List Nat) : Multiset Nat) := by
          rw [freqs_perm hpushperm]
          simp only [List.map_cons]
          rw [← Multiset.cons_coe]
          rfl
        obtain ⟨root, hroot, hcost⟩ :=
          ih (heappush h2' (Node.mk none (n1.freq + n2.freq) n1 n2))
            (by omega) (by omega) hord3 hnn3 U' (by rw [hfr3]; exact hU'w)
        refine ⟨root, by rw [hstep, hroot], ?_⟩
        have hs3 : ((heappush h2' (Node.mk none (n1.freq + n2.freq) n1 n2)).map
              tcost).sum =
            tcost (Node.mk none (n1.freq + n2.freq) n1 n2) + (h2'.map tcost).sum := by
          rw [tcost_sum_perm hpushperm]
          simp only [List.map_cons, List.sum_cons]
        have hs1 : (heap.map tcost).sum = tcost n1 + (tcost n2 + (h2'.map tcost).sum) := by
          rw [← tcost_sum_perm hperm1]
          simp only [List.map_cons, List.sum_cons]
          rw [← tcost_sum_perm hperm2]
          simp only [List.map_cons, List.sum_cons]
        have htc : tcost (Node.mk none (n1.freq + n2.freq) n1 n2) =
            tcost n1 + tcost n2 + n1.freq + n2.freq := by
          cases n1 with
          | nil => exact absurd rfl hnn1
          | mk k1 f1 l1 r1 =>
              cases n2 with
              | nil => exact absurd rfl hnn2
              | mk k2 f2 l2 r2 => rfl
        omega
      · obtain ⟨root, rfl⟩ := List.length_eq_one.mp (show heap.length = 1 by omega)
        refine ⟨root, ?_, ?_⟩
        · show (if ([root] : List Node).length > 1 then _ else _) = _
          rw [if_neg (by simp)]
        · simp only [List.map_cons, List.map_nil, List.sum_cons, List.sum_nil]
          omega

theorem heapPairs_cons (n : Node) (h : List Node) :
    heapPairs (n :: h) = leafPairs n ++ heapPairs h := rfl

theorem heapPairs_perm {h1 h2 : List Node} (p : List.Perm h1 h2) :
    List.Perm (heapPairs h1) (heapPairs h2) := by
  induction p with
  | nil => exact List.Perm.refl _
  | cons x _ ih =>
      rw [heapPairs_cons, heapPairs_cons]
      exact ih.append_left _
  | swap x y l =>
      rw [heapPairs_cons, heapPairs_cons, heapPairs_cons, heapPairs_cons,
        ← List.append_assoc, ← List.append_assoc]
      exact List.Perm.append_right _ List.perm_append_comm
  | trans _ _ ih1 ih2 => exact ih1.trans ih2

theorem heapPairs_leaves :
    ∀ fd : List (Nat × Nat),
      heapPairs (fd.map (fun kv => Node.mk (some kv.1) kv.2 .nil .nil)) = fd := by
  intro fd
  induction fd with
  | nil => rfl
  | cons kv rest ih =>
      show heapPairs (Node.mk (some kv.1) kv.2 .nil .nil :: _) = _
      rw [heapPairs_cons, ih]
      show [(kv.1, kv.2)] ++ rest = kv :: rest
      simp

theorem buildTreeLoop_pairs :
    ∀ (fuel : Nat) (heap : List Node),
      1 ≤ heap.length → heap.length ≤ fuel + 1 →
      ∀ root, buildTreeLoop fuel heap = [root] →
      List.Perm (heapPairs heap) (leafPairs root) := by
  intro fuel
  induction fuel with
  | zero =>
      intro heap h1 h2 root hroot
      have hh : heap = [root] := hroot
      rw [hh]
      show List.Perm (leafPairs root ++ []) (leafPairs root)
      rw [List.append_nil]
  | succ fuel ih =>
      intro heap h1 h2 root hroot
      by_cases hlen : heap.length > 1
      · obtain ⟨⟨n1, h1'⟩, hpop1⟩ : ∃ p, heappop heap = some p := by
          cases hp : heappop heap with
          | none =>
              rw [heappop_none_iff] at hp
              subst hp
              simp at hlen
          | some p => exact ⟨p, rfl⟩
        have hperm1 := heappop_perm heap n1 h1' hpop1
        have hlen1 : h1'.length + 1 = heap.length := by
          have := hperm1.length_eq
          simpa using this
        obtain ⟨⟨n2, h2'⟩, hpop2⟩ : ∃ p, heappop h1' = some p := by
          cases hp : heappop h1' with
          | none =>
              rw [heappop_none_iff] at hp
              subst hp
              simp at hlen1
              omega
          | some p => exact ⟨p, rfl⟩
        have hperm2 := heappop_perm h1' n2 h2' hpop2
        have hlen2 : h2'.length + 1 = h1'.length := by
          have := hperm2.length_eq
          simpa using this
        have hstep : buildTreeLoop (fuel + 1) heap =
            buildTreeLoop fuel
              (heappush h2' (Node.mk none (n1.freq + n2.freq) n1 n2)) := by
          show (if heap.length > 1 then
              match heappop heap with
              | none => heap
              | some (node_1, h1) =>
                  match heappop h1 with
                  | none => h1
                  | some (node_2, h2) =>
                      buildTreeLoop fuel
                        (heappush h2 (Node.mk none (node_1.freq + node_2.freq) node_1 node_2))
            else heap) = _
          rw [if_pos hlen, hpop1]
          show (match heappop h1' with
            | none => h1'
            | some (node_2, h2) =>
                buildTreeLoop fuel
                  (heappush h2 (Node.mk none (n1.freq + node_2.freq) n1 node_2))) = _
          rw [hpop2]
        rw [hstep] at hroot
        have hpushperm := heappush_perm h2' (Node.mk none (n1.freq + n2.freq) n1 n2)
        have hlenpush : (heappush h2' (Node.mk none (n1.freq + n2.freq) n1 n2)).length
            = h2'.length + 1 := by
          have := hpushperm.length_eq
          simpa using this
        have hrec := ih (heappush h2' (Node.mk none (n1.freq + n2.freq) n1 n2))
          (by omega) (by omega) root hroot
        have hmerge : leafPairs (Node.mk none (n1.freq + n2.freq) n1 n2)
            = leafPairs n1 ++ leafPairs n2 := by
          simp [leafPairs]
        have hchain1 : List.Perm (heapPairs heap)
            (leafPairs n1 ++ (leafPairs n2 ++ heapPairs h2')) := by
          refine (heapPairs_perm hperm1).symm.trans ?_
          rw [heapPairs_cons]
          refine List.Perm.append_left _ ?_
          have hp2 := heapPairs_perm hperm2
          rw [heapPairs_cons] at hp2
          exact hp2.symm
        have hchain2 : List.Perm
            (heapPairs (heappush h2' (Node.mk none (n1.freq + n2.freq) n1 n2)))
            ((leafPairs n1 ++ leafPairs n2) ++ heapPairs h2') := by
          refine (heapPairs_perm hpushperm).trans ?_
          rw [heapPairs_cons, hmerge]
        refine hchain1.trans ?_
        rw [← List.append_assoc]
        exact hchain2.symm.trans hrec
      · obtain ⟨root', rfl⟩ := List.length_eq_one.mp (show heap.length = 1 by omega)
        have hid : buildTreeLoop (fuel + 1) [root'] = [root'] := by
          show (if ([root'] : List Node).length > 1 then _ else _) = _
          rw [if_neg (by simp)]
        rw [hid] at hroot
        simp at hroot
        subst hroot
        show List.Perm (leafPairs root' ++ []) (leafPairs root')
        rw [List.append_nil]

theorem build_tree_pairs (fd : List (Nat × Nat)) (hne : fd ≠ [])
    (root : Node) (hroot : build_tree (build_heap fd) = [root]) :
    List.Perm fd (leafPairs root) := by
  have hbperm := build_heap_perm fd
  have hblen : (build_heap fd).length = fd.length := by
    have := hbperm.length_eq
    simpa using this
  have hfdlen : 1 ≤ fd.length := by
    cases fd with
    | nil => exact absurd rfl hne
    | cons a t => simp
  have hp := buildTreeLoop_pairs (build_heap fd).length (build_heap fd)
    (by omega) (by omega) root hroot
  have h1 := heapPairs_perm hbperm
  rw [heapPairs_leaves] at h1
  exact (h1.symm.trans hp).symm.symm

theorem leafCodes_sum :
    ∀ (n : Node) (p : List Bool),
      ((leafCodes n p).map (fun e => e.2.1 * e.2.2.length)).sum = wlen n p.length := by
  intro n
  induction n with
  | nil => intro p; rfl
  | mk key f l r ihl ihr =>
      intro p
      simp only [leafCodes, wlen, List.map_append, List.sum_append, ihl, ihr,
        List.length_append, List.length_singleton]
      cases key with
      | none => simp
      | some k => simp

theorem wlen_tcost :
    ∀ n : Node, wf n = true → ∀ d : Nat, wlen n d = tcost n + n.freq * d := by
  intro n
  induction n with
  | nil => intro hwf; exact absurd hwf (by simp [wf])
  | mk key f l r ihl ihr =>
      intro hwf d
      cases key with
      | some k =>
          cases l with
          | mk k1 f1 l1 r1 => exact absurd hwf (by simp [wf])
          | nil =>
              cases r with
              | mk k2 f2 l2 r2 => exact absurd hwf (by simp [wf])
              | nil =>
                  show f * d + 0 + 0 = 0 + f * d
                  omega
      | none =>
          cases l with
          | nil => exact absurd hwf (by simp [wf])
          | mk k1 f1 l1 r1 =>
              cases r with
              | nil => exact absurd hwf (by simp [wf])
              | mk k2 f2 l2 r2 =>
                  have hwfc : f = f1 + f2 ∧ wf (.mk k1 f1 l1 r1) = true ∧
                      wf (.mk k2 f2 l2 r2) = true := by
                    have h := hwf
                    simp only [wf, Bool.and_eq_true, beq_iff_eq] at h
                    exact ⟨h.1.1, h.1.2, h.2⟩
                  show 0 + wlen (.mk k1 f1 l1 r1) (d + 1) + wlen (.mk k2 f2 l2 r2) (d + 1) =
                    tcost (.mk k1 f1 l1 r1) + tcost (.mk k2 f2 l2 r2) + f1 + f2 + f * d
                  rw [ihl hwfc.2.1, ihr hwfc.2.2]
                  show 0 + (tcost (.mk k1 f1 l1 r1) + f1 * (d + 1)) +
                    (tcost (.mk k2 f2 l2 r2) + f2 * (d + 1)) =
                    tcost (.mk k1 f1 l1 r1) + tcost (.mk k2 f2 l2 r2) + f1 + f2 + f * d
                  rw [hwfc.1]
                  ring

theorem lc_proj1 : ∀ (n : Node) (p : List Bool),
    (leafCodes n p).map (fun e => (e.1, e.2.2)) = entriesOf n p := by
  intro n
  induction n with
  | nil => intro p; rfl
  | mk key f l r ihl ihr =>
      intro p
      simp only [leafCodes, entriesOf, List.map_append, ihl, ihr, List.map_map]
      cases key <;> rfl

theorem lc_proj2 : ∀ (n : Node) (p : List Bool),
    (leafCodes n p).map (fun e => (e.1, e.2.1)) = leafPairs n := by
  intro n
  induction n with
  | nil => intro p; rfl
  | mk key f l r ihl ihr =>
      intro p
      simp only [leafCodes, leafPairs, List.map_append, ihl, ihr, List.map_map]
      cases key <;> rfl

theorem dictGet?_of_mem_nodup {α β : Type} [DecidableEq α] :
    ∀ (d : List (α × β)) (k : α) (v : β), (d.map Prod.fst).Nodup → (k, v) ∈ d →
      dictGet? d k = some v := by
  intro d
  induction d with
  | nil => intro k v _ h; simp at h
  | cons kv rest ih =>
      intro k v hnodup hmem
      obtain ⟨k', v'⟩ := kv
      simp only [List.map_cons, List.nodup_cons] at hnodup
      rcases List.mem_cons.mp hmem with heq | hmem'
      · obtain ⟨rfl, rfl⟩ := Prod.mk.injEq .. |>.mp heq
        show (if k = k then some v else dictGet? rest k) = some v
        rw [if_pos rfl]
      · have hne : k' ≠ k := by
          intro h
          subst h
          exact hnodup.1 (List.mem_map_of_mem Prod.fst hmem')
        show (if k' = k then some v' else dictGet? rest k) = some v
        rw [if_neg hne]
        exact ih k v hnodup.2 hmem'

theorem sum_map_succ (l : List (Nat × List Bool)) :
    (l.map (fun p => p.2.length + 1)).sum =
      (l.map (fun p => p.2.length)).sum + l.length := by
  induction l with
  | nil => rfl
  | cons a t ih =>
      simp only [List.map_cons, List.sum_cons, List.length_cons, ih]
      omega

theorem sum_mul_succ (l : List (Nat × List Bool)) :
    (l.map (fun p => p.1 * (p.2.length + 1))).sum =
      (l.map (fun p => p.1 * p.2.length)).sum + (l.map Prod.fst).sum := by
  induction l with
  | nil => rfl
  | cons a t ih =>
      simp only [List.map_cons, List.sum_cons, ih]
      ring

theorem split_strip :
    ∀ (l : List (Nat × List Bool)), (∀ p ∈ l, p.2 ≠ []) →
      ((l.map Prod.fst : List Nat) : Multiset Nat) =
        (((l.filterMap (stripBit false)).map Prod.fst : List Nat) : Multiset Nat) +
        (((l.filterMap (stripBit true)).map Prod.fst : List Nat) : Multiset Nat) ∧
      (l.map (fun p => p.1 * p.2.length)).sum =
        ((l.filterMap (stripBit false)).map (fun p => p.1 * (p.2.length + 1))).sum +
        ((l.filterMap (stripBit true)).map (fun p => p.1 * (p.2.length + 1))).sum ∧
      (l.map (fun p => p.2.length)).sum =
        ((l.filterMap (stripBit false)).map (fun p => p.2.length + 1)).sum +
        ((l.filterMap (stripBit true)).map (fun p => p.2.length + 1)).sum := by
  intro l
  induction l with
  | nil => exact fun _ => ⟨rfl, rfl, rfl⟩
  | cons p rest ih =>
      intro hne
      obtain ⟨f, c⟩ := p
      have hc : c ≠ [] := hne (f, c) (List.mem_cons_self _ _)
      obtain ⟨b, c', rfl⟩ : ∃ b c', c = b :: c' := by
        cases c with
        | nil => exact absurd rfl hc
        | cons b c' => exact ⟨b, c', rfl⟩
      obtain ⟨ih1, ih2, ih3⟩ := ih (fun q hq => hne q (List.mem_cons_of_mem _ hq))
      cases b with
      | false =>
          have hsf : stripBit false (f, false :: c') = some (f, c') := by
            show (if false = false then some (f, c') else none) = _
            rw [if_pos rfl]
          have hst : stripBit true (f, false :: c') = none := by
            show (if false = true then some (f, c') else none) = _
            rw [if_neg (by simp)]
          refine ⟨?_, ?_, ?_⟩
          · simp only [List.map_cons, List.filterMap_cons, hsf, hst]
            rw [← Multiset.cons_coe, ← Multiset.cons_coe, ih1, Multiset.cons_add]
          · simp only [List.map_cons, List.filterMap_cons, hsf, hst, List.sum_cons,
              List.length_cons]
            rw [ih2]
            ring
          · simp only [List.map_cons, List.filterMap_cons, hsf, hst, List.sum_cons,
              List.length_cons]
            rw [ih3]
            ring
      | true =>
          have hsf : stripBit false (f, true :: c') = none := by
            show (if true = false then some (f, c') else none) = _
            rw [if_neg (by simp)]
          have hst : stripBit true (f, true :: c') = some (f, c') := by
            show (if true = true then some (f, c') else none) = _
            rw [if_pos rfl]
          refine ⟨?_, ?_, ?_⟩
          · simp only [List.map_cons, List.filterMap_cons, hsf, hst]
            rw [← Multiset.cons_coe, ← Multiset.cons_coe, ih1, Multiset.add_cons]
          · simp only [List.map_cons, List.filterMap_cons, hsf, hst, List.sum_cons,
              List.length_cons]
            rw [ih2]
            ring
          · simp only [List.map_cons, List.filterMap_cons, hsf, hst, List.sum_cons,
              List.length_cons]
            rw [ih3]
            ring

theorem pairwise_stripBit (b : Bool) :
    ∀ (l : List (Nat × List Bool)),
      l.Pairwise (fun p q => ¬ p.2 <+: q.2 ∧ ¬ q.2 <+: p.2) →
      (l.filterMap (stripBit b)).Pairwise
        (fun p q => ¬ p.2 <+: q.2 ∧ ¬ q.2 <+: p.2) := by
  intro l h
  induction h with
  | nil => simp
  | @cons p rest hrel _ ih =>
      obtain ⟨f, c⟩ := p
      cases c with
      | nil =>
          have hnil : stripBit b (f, []) = none := rfl
          simp only [List.filterMap_cons, hnil]
          exact ih
      | cons b' c' =>
          by_cases hb : b' = b
          · have hsome : stripBit b (f, b' :: c') = some (f, c') := by
              show (if b' = b then some (f, c') else none) = _
              rw [if_pos hb]
            simp only [List.filterMap_cons, hsome]
            refine List.Pairwise.cons ?_ ih
            intro q' hq'
            rw [List.mem_filterMap] at hq'
            obtain ⟨⟨fq, cq⟩, hq, hq'eq⟩ := hq'
            cases cq with
            | nil => rw [show stripBit b (fq, []) = none from rfl] at hq'eq; simp at hq'eq
            | cons bq cq' =>
                by_cases hbq : bq = b
                · have hsq : stripBit b (fq, bq :: cq') = some (fq, cq') := by
                    show (if bq = b then some (fq, cq') else none) = _
                    rw [if_pos hbq]
                  rw [hsq] at hq'eq
                  obtain rfl := Option.some.inj hq'eq
                  have hr := hrel (fq, bq :: cq') hq
                  constructor
                  · intro hpre
                    exact hr.1 (List.cons_prefix_cons.mpr ⟨hb.trans hbq.symm, hpre⟩)
                  · intro hpre
                    exact hr.2 (List.cons_prefix_cons.mpr ⟨hbq.trans hb.symm, hpre⟩)
                · have hsq : stripBit b (fq, bq :: cq') = none := by
                    show (if bq = b then some (fq, cq') else none) = _
                    rw [if_neg hbq]
                  rw [hsq] at hq'eq
                  simp at hq'eq
          · have hnone : stripBit b (f, b' :: c') = none := by
              show (if b' = b then some (f, c') else none) = _
              rw [if_neg hb]
            simp only [List.filterMap_cons, hnone]
            exact ih

theorem dfm_nd_fst (l r : WTree) :
    (dfm (.nd l r)).map Prod.fst = (dfm l).map Prod.fst + (dfm r).map Prod.fst := by
  rw [dfm_nd, Multiset.map_add, Multiset.map_map, Multiset.map_map]
  refine congrArg₂ HAdd.hAdd ?_ ?_ <;>
    exact Multiset.map_congr rfl (fun x _ => rfl)

theorem build_wtree :
    ∀ (N : Nat) (l : List (Nat × List Bool)),
      (l.map (fun p => p.2.length)).sum ≤ N → l ≠ [] →
      l.Pairwise (fun p q => ¬ p.2 <+: q.2 ∧ ¬ q.2 <+: p.2) →
      ∃ t : WTree,
        (dfm t).map Prod.fst = ((l.map Prod.fst : List Nat) : Multiset Nat) ∧
        t.cost ≤ (l.map (fun p => p.1 * p.2.length)).sum := by
  intro N
  induction N with
  | zero =>
      intro l hN hne hpw
      cases l with
      | nil => exact absurd rfl hne
      | cons p rest =>
          cases rest with
          | nil =>
              refine ⟨.lf p.1, ?_, Nat.zero_le _⟩
              rw [dfm_lf]
              simp only [Multiset.map_singleton, List.map_cons, List.map_nil]
              rw [← Multiset.coe_singleton]
          | cons q rest' =>
              obtain ⟨hpw1, _⟩ := List.pairwise_cons.mp hpw
              simp only [List.map_cons, List.sum_cons] at hN
              have hp2 : p.2 = [] :=
                List.eq_nil_of_length_eq_zero (by omega)
              exact absurd (show p.2 <+: q.2 by rw [hp2]; exact List.nil_prefix)
                (hpw1 q (List.mem_cons_self _ _)).1
  | succ N ih =>
      intro l hN hne hpw
      cases l with
      | nil => exact absurd rfl hne
      | cons p rest =>
          cases rest with
          | nil =>
              refine ⟨.lf p.1, ?_, Nat.zero_le _⟩
              rw [dfm_lf]
              simp only [Multiset.map_singleton, List.map_cons, List.map_nil]
              rw [← Multiset.coe_singleton]
          | cons q rest' =>
              obtain ⟨hpw1, _⟩ := List.pairwise_cons.mp hpw
              have hnonnil : ∀ x ∈ p :: q :: rest', x.2 ≠ [] := by
                intro x hx hemp
                rcases List.mem_cons.mp hx with rfl | hx'
                · exact (hpw1 q (List.mem_cons_self _ _)).1
                    (by rw [hemp]; exact List.nil_prefix)
                · exact (hpw1 x hx').2 (by rw [hemp]; exact List.nil_prefix)
              obtain ⟨hsplit1, hsplit2, hsplit3⟩ := split_strip (p :: q :: rest') hnonnil
              have hpwF := pairwise_stripBit false (p :: q :: rest') hpw
              have hpwT := pairwise_stripBit true (p :: q :: rest') hpw
              set F := (p :: q :: rest').filterMap (stripBit false) with hFdef
              set T := (p :: q :: rest').filterMap (stripBit true) with hTdef
              by_cases hF : F = []
              · by_cases hT : T = []
                · exfalso
                  rw [hF, hT] at hsplit1
                  simp at hsplit1
                · rw [hF] at hsplit1 hsplit2 hsplit3
                  simp only [List.map_nil, Multiset.coe_nil, List.sum_nil,
                    Nat.zero_add, zero_add] at hsplit1 hsplit2 hsplit3
                  have hTlen : (T.map (fun e => e.2.length)).sum ≤ N := by
                    have hs := sum_map_succ T
                    have hTpos : 1 ≤ T.length := List.length_pos.mpr hT
                    omega
                  obtain ⟨t, htw, htc⟩ := ih T hTlen hT hpwT
                  refine ⟨t, ?_, ?_⟩
                  · rw [htw, hsplit1]
                  · have hs := sum_mul_succ T
                    omega
              · by_cases hT : T = []
                · rw [hT] at hsplit1 hsplit2 hsplit3
                  simp only [List.map_nil, Multiset.coe_nil, List.sum_nil,
                    Nat.add_zero, add_zero] at hsplit1 hsplit2 hsplit3
                  have hFlen : (F.map (fun e => e.2.length)).sum ≤ N := by
                    have hs := sum_map_succ F
                    have hFpos : 1 ≤ F.length := List.length_pos.mpr hF
                    omega
                  obtain ⟨t, htw, htc⟩ := ih F hFlen hF hpwF
                  refine ⟨t, ?_, ?_⟩
                  · rw [htw, hsplit1]
                  · have hs := sum_mul_succ F
                    omega
                · have hFpos : 1 ≤ F.length := List.length_pos.mpr hF
                  have hTpos : 1 ≤ T.length := List.length_pos.mpr hT
                  have hsF := sum_map_succ F
                  have hsT := sum_map_succ T
                  have hFlen : (F.map (fun e => e.2.length)).sum ≤ N := by omega
                  have hTlen : (T.map (fun e => e.2.length)).sum ≤ N := by omega
                  obtain ⟨t0, ht0w, ht0c⟩ := ih F hFlen hF hpwF
                  obtain ⟨t1, ht1w, ht1c⟩ := ih T hTlen hT hpwT
                  refine ⟨.nd t0 t1, ?_, ?_⟩
                  · rw [dfm_nd_fst, ht0w, ht1w, hsplit1]
                  · show t0.cost + t1.cost + t0.wt + t1.wt ≤ _
                    have hw0 : t0.wt = (F.map Prod.fst).sum := by
                      rw [wt_eq_msum, ht0w]
                      exact Multiset.sum_coe _
                    have hw1 : t1.wt = (T.map Prod.fst).sum := by
                      rw [wt_eq_msum, ht1w]
                      exact Multiset.sum_coe _
                    have hmF := sum_mul_succ F
                    have hmT := sum_mul_succ T
                    omega

theorem huff_core (fd : List (Nat × Nat)) (hne : fd ≠ [])
    (hnodup : (fd.map Prod.fst).Nodup)
    (codes : List (Nat × List Bool)) (rev : List (List Bool × Nat))
    (htab : codeTablesOf fd = some (codes, rev)) :
    ∃ root : Node, build_tree (build_heap fd) = [root] ∧ wf root = true ∧
      codes = entriesOf root [] ∧ List.Perm fd (leafPairs root) ∧
      (fd.map (fun kv => kv.2 * ((dictGet? codes kv.1).getD []).length)).sum
        = tcost root ∧
      ∀ U : WTree,
        (dfm U).map Prod.fst = ((fd.map Prod.snd : List Nat) : Multiset Nat) →
        tcost root ≤ U.cost := by
  have hbperm := build_heap_perm fd
  have hblen : (build_heap fd).length = fd.length := by
    have := hbperm.length_eq
    simpa using this
  have hfdlen : 1 ≤ fd.length := by
    cases fd with
    | nil => exact absurd rfl hne
    | cons a t => simp
  obtain ⟨root, hroot, hwfroot, hkeys⟩ := build_tree_spec fd hne
  have hpairs := build_tree_pairs fd hne root hroot
  have hpop : heappop (build_tree (build_heap fd)) = some (root, []) := by
    rw [hroot]; rfl
  have htab' : build_codes root [] ([], []) = (codes, rev) := by
    have h := htab
    rw [codeTablesOf, hpop] at h
    simpa using h
  have hnodupkeys : (leafKeys root).Nodup := (hkeys.nodup_iff).mp hnodup
  have hentries : codes = entriesOf root [] := by
    rw [show codes = (build_codes root [] ([], [])).1 by rw [htab'], build_codes_fst]
    have h := foldl_dictSet_nodup (entriesOf root []) []
      (fun kv _ => rfl) (by rw [entriesOf_map_fst]; exact hnodupkeys)
    simpa using h
  have hcodesnodup : (codes.map Prod.fst).Nodup := by
    rw [hentries, entriesOf_map_fst]
    exact hnodupkeys
  have hlookup : ∀ e ∈ leafCodes root [], dictGet? codes e.1 = some e.2.2 := by
    intro e he
    apply dictGet?_of_mem_nodup codes e.1 e.2.2 hcodesnodup
    rw [hentries, ← lc_proj1 root []]
    exact List.mem_map_of_mem _ he
  have hsum : (fd.map (fun kv => kv.2 * ((dictGet? codes kv.1).getD []).length)).sum
      = tcost root := by
    have h1 : (fd.map (fun kv => kv.2 * ((dictGet? codes kv.1).getD []).length)).sum =
        ((leafPairs root).map
          (fun kv => kv.2 * ((dictGet? codes kv.1).getD []).length)).sum :=
      (hpairs.map _).sum_eq
    rw [h1, ← lc_proj2 root [], List.map_map]
    have h2 : ∀ e ∈ leafCodes root [],
        ((fun kv : Nat × Nat => kv.2 * ((dictGet? codes kv.1).getD []).length) ∘
          (fun e : Nat × Nat × List Bool => (e.1, e.2.1))) e
        = e.2.1 * e.2.2.length := by
      intro e he
      show e.2.1 * ((dictGet? codes e.1).getD []).length = _
      rw [hlookup e he]
      rfl
    rw [List.map_congr_left h2, leafCodes_sum root [],
      show ([] : List Bool).length = 0 from rfl, wlen_tcost root hwfroot 0]
    simp
  have hfr : (((build_heap fd).map Node.freq : List Nat) : Multiset Nat) =
      ((fd.map Prod.snd : List Nat) : Multiset Nat) := by
    rw [freqs_perm hbperm]
    congr 1
    rw [List.map_map]
    exact List.map_congr_left (fun kv _ => rfl)
  have htcost0 : ((build_heap fd).map tcost).sum = 0 := by
    rw [tcost_sum_perm hbperm]
    have hz : ∀ kvs : List (Nat × Nat),
        ((kvs.map (fun kv => Node.mk (some kv.1) kv.2 .nil .nil)).map tcost).sum = 0 := by
      intro kvs
      induction kvs with
      | nil => rfl
      | cons a t ihz =>
          simp only [List.map_cons, List.sum_cons, ihz]
          rfl
    exact hz fd
  have hnonnil : ∀ n ∈ build_heap fd, n ≠ Node.nil := by
    intro n hn hcon
    obtain ⟨kv, _, heq⟩ := List.mem_map.mp (hbperm.subset hn)
    rw [hcon] at heq
    exact Node.noConfusion heq
  refine ⟨root, hroot, hwfroot, hentries, hpairs, hsum, ?_⟩
  intro U hU
  obtain ⟨root', hroot', hbound⟩ := buildTreeLoop_cost (build_heap fd).length
    (build_heap fd) (by omega) (by omega) (build_heap_heapOrd fd) hnonnil U
    (by rw [hfr]; exact hU)
  have hroot2 : buildTreeLoop (build_heap fd).length (build_heap fd) = [root] := hroot
  rw [hroot2] at hroot'
  simp at hroot'
  subst hroot'
  rw [htcost0, Nat.zero_add] at hbound
  exact hbound

theorem leafPairs_map_fst : ∀ n : Node, (leafPairs n).map Prod.fst = leafKeys n := by
  intro n
  induction n with
  | nil => rfl
  | mk key f l r ihl ihr =>
      simp only [leafPairs, leafKeys, List.map_append, ihl, ihr, List.map_map]
      cases key <;> rfl

theorem huff_min_aux (fd : List (Nat × Nat)) (hne : fd ≠ [])
    (hnodup : (fd.map Prod.fst).Nodup)
    (codes : List (Nat × List Bool)) (rev : List (List Bool × Nat))
    (htab : codeTablesOf fd = some (codes, rev))
    (g : Nat → List Bool)
    (hgpf : ∀ s ∈ fd.map Prod.fst, ∀ t ∈ fd.map Prod.fst, s ≠ t → ¬ (g s <+: g t)) :
    (fd.map (fun kv => kv.2 * ((dictGet? codes kv.1).getD []).length)).sum ≤
      (fd.map (fun kv => kv.2 * (g kv.1).length)).sum := by
  obtain ⟨root, hroot, hwfroot, hentries, hpairs, hsum, hmin⟩ :=
    huff_core fd hne hnodup codes rev htab
  rw [hsum]
  have hlgne : fd.map (fun kv => (kv.2, g kv.1)) ≠ [] := by
    intro h
    exact hne (List.map_eq_nil_iff.mp h)
  have hfdpw : fd.Pairwise (fun a b => a.1 ≠ b.1) := List.pairwise_map.mp hnodup
  have hlgpw : (fd.map (fun kv => (kv.2, g kv.1))).Pairwise
      (fun p q => ¬ p.2 <+: q.2 ∧ ¬ q.2 <+: p.2) := by
    refine List.pairwise_map.mpr ?_
    refine List.Pairwise.imp_of_mem ?_ hfdpw
    intro a b ha hb hab
    exact ⟨hgpf a.1 (List.mem_map_of_mem _ ha) b.1 (List.mem_map_of_mem _ hb) hab,
      hgpf b.1 (List.mem_map_of_mem _ hb) a.1 (List.mem_map_of_mem _ ha) hab.symm⟩
  obtain ⟨U, hUw, hUc⟩ := build_wtree
    ((fd.map (fun kv => (kv.2, g kv.1))).map (fun p => p.2.length)).sum
    (fd.map (fun kv => (kv.2, g kv.1))) le_rfl hlgne hlgpw
  have hUw' : (dfm U).map Prod.fst = ((fd.map Prod.snd : List Nat) : Multiset Nat) := by
    rw [hUw]
    congr 1
    rw [List.map_map]
    exact List.map_congr_left (fun kv _ => rfl)
  have hcost : U.cost ≤ (fd.map (fun kv => kv.2 * (g kv.1).length)).sum := by
    have h := hUc
    rw [List.map_map] at h
    have heq : ((fun p : Nat × List Bool => p.1 * p.2.length) ∘
        (fun kv : Nat × Nat => (kv.2, g kv.1)))
        = fun kv : Nat × Nat => kv.2 * (g kv.1).length := by
      funext kv
      rfl
    rw [heq] at h
    exact h
  exact le_trans (hmin U hUw') hcost

theorem huff_pf_fun (fd : List (Nat × Nat)) (hne : fd ≠ [])
    (hnodup : (fd.map Prod.fst).Nodup)
    (codes : List (Nat × List Bool)) (rev : List (List Bool × Nat))
    (htab : codeTablesOf fd = some (codes, rev)) :
    ∀ s ∈ fd.map Prod.fst, ∀ t ∈ fd.map Prod.fst, s ≠ t →
      ¬ ((dictGet? codes s).getD [] <+: (dictGet? codes t).getD []) := by
  obtain ⟨root, hroot, hwfroot, hentries, hpairs, _, _⟩ :=
    huff_core fd hne hnodup codes rev htab
  have hkeys : List.Perm (fd.map Prod.fst) (leafKeys root) := by
    have h := hpairs.map Prod.fst
    rw [leafPairs_map_fst] at h
    exact h
  have hcodesnodup : (codes.map Prod.fst).Nodup := by
    rw [hentries, entriesOf_map_fst]
    exact (hkeys.nodup_iff).mp hnodup
  have hget : ∀ u ∈ fd.map Prod.fst,
      ∃ cu, dictGet? codes u = some cu ∧ (u, cu) ∈ entriesOf root [] := by
    intro u hu
    have hu' : u ∈ codes.map Prod.fst := by
      rw [hentries, entriesOf_map_fst]
      exact hkeys.subset hu
    obtain ⟨⟨u', cu⟩, hmem, heq⟩ := List.mem_map.mp hu'
    have heq' : u' = u := heq
    refine ⟨cu, dictGet?_of_mem_nodup codes u cu hcodesnodup (heq' ▸ hmem), ?_⟩
    rw [← hentries]
    exact heq' ▸ hmem
  intro s hs t ht hst
  obtain ⟨cs, hcs, hcsmem⟩ := hget s hs
  obtain ⟨ct, hct, hctmem⟩ := hget t ht
  rw [hcs, hct]
  show ¬ (cs <+: ct)
  exact entriesOf_pf root hwfroot [] s t cs ct hcsmem hctmem hst

/-- Claim C8: for every non-empty frequency table with pairwise-distinct
keys, the code table produced by the greedy priority-queue merge minimises
the total of frequency times code length over all prefix-free code
assignments for the same alphabet, and a symbol with strictly higher
frequency never receives a strictly longer code than a lower-frequency
symbol. -/
theorem C8_optimality (fd : List (Nat × Nat)) (hne : fd ≠ [])
    (hnodup : (fd.map Prod.fst).Nodup)
    (codes : List (Nat × List Bool)) (rev : List (List Bool × Nat))
    (htab : codeTablesOf fd = some (codes, rev)) :
    (∀ g : Nat → List Bool,
      (∀ s ∈ fd.map Prod.fst, ∀ t ∈ fd.map Prod.fst, s ≠ t → ¬ (g s <+: g t)) →
      (fd.map (fun kv => kv.2 * ((dictGet? codes kv.1).getD []).length)).sum ≤
        (fd.map (fun kv => kv.2 * (g kv.1).length)).sum) ∧
    (∀ s f t f', (s, f) ∈ fd → (t, f') ∈ fd → f' < f →
      ((dictGet? codes s).getD []).length ≤ ((dictGet? codes t).getD []).length) := by
  constructor
  · intro g hg
    exact huff_min_aux fd hne hnodup codes rev htab g hg
  · intro s f t f' hsf htf' hff
    by_contra hcon
    have hlen : ((dictGet? codes t).getD []).length <
        ((dictGet? codes s).getD []).length := by omega
    have hst : s ≠ t := by
      intro h
      subst h
      have h1 := dictGet?_of_mem_nodup fd s f hnodup hsf
      have h2 := dictGet?_of_mem_nodup fd s f' hnodup htf'
      rw [h1] at h2
      obtain rfl := Option.some.inj h2
      exact absurd hff (lt_irrefl _)
    have hpf := huff_pf_fun fd hne hnodup codes rev htab
    have hsk : s ∈ fd.map Prod.fst := List.mem_map_of_mem Prod.fst hsf
    have htk : t ∈ fd.map Prod.fst := List.mem_map_of_mem Prod.fst htf'
    set g0 : Nat → List Bool := fun u =>
      if u = s then (dictGet? codes t).getD []
      else if u = t then (dictGet? codes s).getD []
      else (dictGet? codes u).getD [] with hg0def
    have hg0s : g0 s = (dictGet? codes t).getD [] := by
      simp [hg0def]
    have hg0t : g0 t = (dictGet? codes s).getD [] := by
      simp [hg0def, Ne.symm hst]
    have hg0pf : ∀ u ∈ fd.map Prod.fst, ∀ v ∈ fd.map Prod.fst, u ≠ v →
        ¬ (g0 u <+: g0 v) := by
      intro u hu v hv huv
      rw [hg0def]
      simp only []
      by_cases hus : u = s
      · rw [if_pos hus]
        by_cases hvt : v = t
        · rw [if_neg (by rw [hvt]; exact hst.symm), if_pos hvt]
          exact hpf t htk s hsk hst.symm
        · rw [if_neg (fun h => huv (hus.trans h.symm)), if_neg hvt]
          exact hpf t htk v hv (fun h => hvt h.symm)
      · rw [if_neg hus]
        by_cases hut : u = t
        · rw [if_pos hut]
          by_cases hvs : v = s
          · rw [if_pos hvs]
            exact hpf s hsk t htk hst
          · rw [if_neg hvs, if_neg (fun h => huv (hut.trans h.symm))]
            exact hpf s hsk v hv (fun h => hvs h.symm)
        · rw [if_neg hut]
          by_cases hvs : v = s
          · rw [if_pos hvs]
            exact hpf u hu t htk (fun h => hut h)
          · rw [if_neg hvs]
            by_cases hvt : v = t
            · rw [if_pos hvt]
              exact hpf u hu s hsk (fun h => hus h)
            · rw [if_neg hvt]
              exact hpf u hu v hv huv
    have hmin := huff_min_aux fd hne hnodup codes rev htab g0 hg0pf
    have hsum_eq : ∀ F : Nat × Nat → Nat,
        (fd.map F).sum = (((fd : Multiset (Nat × Nat))).map F).sum := by
      intro F
      rw [Multiset.map_coe, Multiset.sum_coe]
    have htf'' : ((t, f') : Nat × Nat) ∈ (fd : Multiset (Nat × Nat)).erase (s, f) := by
      rw [Multiset.mem_erase_of_ne (fun h => hst (congrArg Prod.fst h).symm)]
      exact Multiset.mem_coe.mpr htf'
    obtain ⟨R, hR⟩ : ∃ R, (fd : Multiset (Nat × Nat)) = (s, f) ::ₘ (t, f') ::ₘ R := by
      refine ⟨((fd : Multiset (Nat × Nat)).erase (s, f)).erase (t, f'), ?_⟩
      rw [Multiset.cons_erase htf'', Multiset.cons_erase (Multiset.mem_coe.mpr hsf)]
    have hRkeys : ∀ kv ∈ R, kv.1 ≠ s ∧ kv.1 ≠ t := by
      have hnd : ((fd : Multiset (Nat × Nat)).map Prod.fst).Nodup := by
        rw [Multiset.map_coe]
        exact Multiset.coe_nodup.mpr hnodup
      rw [hR] at hnd
      simp only [Multiset.map_cons] at hnd
      rw [Multiset.nodup_cons] at hnd
      obtain ⟨hs1, hnd2⟩ := hnd
      rw [Multiset.nodup_cons] at hnd2
      obtain ⟨ht1, _⟩ := hnd2
      intro kv hkv
      constructor
      · intro h
        exact hs1 (Multiset.mem_cons_of_mem (h ▸ Multiset.mem_map_of_mem Prod.fst hkv))
      · intro h
        exact ht1 (h ▸ Multiset.mem_map_of_mem Prod.fst hkv)
    have hexp : ∀ F : Nat × Nat → Nat,
        ((fd : Multiset (Nat × Nat)).map F).sum =
          F (s, f) + F (t, f') + (R.map F).sum := by
      intro F
      rw [hR]
      simp only [Multiset.map_cons, Multiset.sum_cons]
      ring
    have hRsame : (R.map (fun kv : Nat × Nat => kv.2 * (g0 kv.1).length)).sum
        = (R.map (fun kv : Nat × Nat =>
            kv.2 * ((dictGet? codes kv.1).getD []).length)).sum := by
      congr 1
      refine Multiset.map_congr rfl ?_
      intro kv hkv
      obtain ⟨h1, h2⟩ := hRkeys kv hkv
      rw [hg0def]
      simp only []
      rw [if_neg h1, if_neg h2]
    rw [hsum_eq, hsum_eq, hexp, hexp] at hmin
    simp only [] at hmin
    rw [hg0s, hg0t, hRsame] at hmin
    obtain ⟨d, hd⟩ : ∃ d, f = f' + d + 1 := ⟨f - f' - 1, by omega⟩
    obtain ⟨e, he⟩ : ∃ e, ((dictGet? codes s).getD []).length =
        ((dictGet? codes t).getD []).length + e + 1 :=
      ⟨((dictGet? codes s).getD []).length -
        ((dictGet? codes t).getD []).length - 1, by omega⟩
    rw [hd, he] at hmin
    have hkey : (f' + d + 1) * (((dictGet? codes t).getD []).length + e + 1) +
        f' * ((dictGet? codes t).getD []).length =
        ((f' + d + 1) * ((dictGet? codes t).getD []).length +
          f' * (((dictGet? codes t).getD []).length + e + 1)) + ((d + 1) * (e + 1)) := by
      ring
    rw [hkey] at hmin
    have hpos : 0 < (d + 1) * (e + 1) := Nat.mul_pos (by omega) (by omega)
    linarith

theorem C8_witness :
    ((([(0, 1), (1, 2)] : List (Nat × Nat)).map
        (fun kv => kv.2 *
          ((dictGet? [(0, [false]), (1, [true])] kv.1).getD []).length)).sum ≤
      (([(0, 1), (1, 2)] : List (Nat × Nat)).map
        (fun kv => kv.2 *
          ((fun u => if u = 0 then [false, false] else [true]) kv.1).length)).sum) ∧
    (((dictGet? [(0, [false]), (1, [true])] 1).getD []).length ≤
      ((dictGet? [(0, [false]), (1, [true])] 0).getD []).length) :=
  ⟨(C8_optimality [(0, 1), (1, 2)] (by decide) (by decide)
      [(0, [false]), (1, [true])] [([false], 0), ([true], 1)] rfl).1
      (fun u => if u = 0 then [false, false] else [true]) (by decide),
    (C8_optimality [(0, 1), (1, 2)] (by decide) (by decide)
      [(0, [false]), (1, [true])] [([false], 0), ([true], 1)] rfl).2
      1 2 0 1 (by decide) (by decide) (by decide)⟩

end Huffman
